import Mathlib

/-!
# cc-res: session indexing, summaries, ranking and handoff

A shallow embedding of `main.go`.  Go strings are byte sequences (`len` counts
bytes and `s[:n]` slices bytes), so they are modelled as lists of bytes, and
a length of 100 is a length of 100 bytes.  The standard-library functions the
program calls (`filepath.Base` with `/` as separator, `strings.TrimSpace`,
`time.Duration.Round`, `time.Duration.String`, `time.Time.Format`, `sort.Slice`
as the pattern-defeating quicksort of package sort since Go 1.19) are modelled
as executable functions next to the program's own functions.  The file system,
the decoding of a JSON line, the clock and the external process are inputs.
-/

namespace CcRes

/-! ## Strings -/

/-- A Go string: a sequence of bytes. -/
abbrev GoString := List UInt8

/-- The bytes of an ASCII literal of the source. -/
def lit (s : String) : GoString := s.toList.map (fun c => c.toNat.toUInt8)

/-- Decimal digits of `v`, most significant first, pushed in front of `acc`. -/
def digitsAux : Nat → Nat → GoString → GoString
  | 0, _, acc => acc
  | fuel + 1, v, acc =>
    let acc := (48 + v % 10).toUInt8 :: acc
    if v / 10 = 0 then acc else digitsAux fuel (v / 10) acc

/-- The decimal rendering of a non-negative integer (`%d`, and `fmtInt` of package time). -/
def fmtInt (v : Nat) : GoString :=
  if v = 0 then lit "0" else digitsAux (v + 1) v []

/-- The byte sequences that decode to a rune with `unicode.IsSpace`: the six ASCII
spaces, U+0085, U+00A0, U+1680, U+2000..U+200A, U+2028, U+2029, U+202F, U+205F, U+3000. -/
def spaceSeqs : List GoString :=
  [[0x09], [0x0A], [0x0B], [0x0C], [0x0D], [0x20],
   [0xC2, 0x85], [0xC2, 0xA0], [0xE1, 0x9A, 0x80],
   [0xE2, 0x80, 0x80], [0xE2, 0x80, 0x81], [0xE2, 0x80, 0x82], [0xE2, 0x80, 0x83],
   [0xE2, 0x80, 0x84], [0xE2, 0x80, 0x85], [0xE2, 0x80, 0x86], [0xE2, 0x80, 0x87],
   [0xE2, 0x80, 0x88], [0xE2, 0x80, 0x89], [0xE2, 0x80, 0x8A],
   [0xE2, 0x80, 0xA8], [0xE2, 0x80, 0xA9], [0xE2, 0x80, 0xAF],
   [0xE2, 0x81, 0x9F], [0xE3, 0x80, 0x80]]

/-- Width in bytes of the white-space rune at the front of `s` (0 when the first rune
is not white space), the sequences to look for being `seqs`. -/
def spaceRuneLen (seqs : List GoString) (s : GoString) : Nat :=
  match seqs.find? (fun q => q.isPrefixOf s) with
  | some q => q.length
  | none => 0

/-- Drop white-space runes from the front, at most `fuel` of them. -/
def trimLeftAux (seqs : List GoString) : Nat → GoString → GoString
  | 0, s => s
  | fuel + 1, s =>
    let n := spaceRuneLen seqs s
    if n = 0 then s else trimLeftAux seqs fuel (s.drop n)

/-- The function strings.TrimLeftFunc(s, unicode.IsSpace). -/
def trimLeft (s : GoString) : GoString := trimLeftAux spaceSeqs s.length s

/-- The function strings.TrimRightFunc(s, unicode.IsSpace): the same scan from the end. -/
def trimRight (s : GoString) : GoString :=
  (trimLeftAux (spaceSeqs.map List.reverse) s.length s.reverse).reverse

/-- The function strings.TrimSpace: leading and trailing white space removed. -/
def trimSpace (s : GoString) : GoString := trimRight (trimLeft s)

/-- A continuation byte of UTF-8. -/
def isContinuation (b : UInt8) : Bool := decide (0x80 ≤ b) && decide (b ≤ 0xBF)

/-- Width in bytes of the first rune of `s` as utf8.DecodeRuneInString reports it: the
length of a well-formed encoding, and 1 for a byte that starts none. -/
def runeWidth (s : GoString) : Nat :=
  match s with
  | [] => 0
  | b0 :: rest =>
    if b0 < 0x80 then 1
    else if 0xC2 ≤ b0 ∧ b0 ≤ 0xDF then
      match rest with
      | b1 :: _ => if isContinuation b1 then 2 else 1
      | _ => 1
    else if 0xE0 ≤ b0 ∧ b0 ≤ 0xEF then
      match rest with
      | b1 :: b2 :: _ =>
        if (if b0 = 0xE0 then 0xA0 else 0x80) ≤ b1 ∧ b1 ≤ (if b0 = 0xED then 0x9F else 0xBF) ∧
            isContinuation b2 then 3
        else 1
      | _ => 1
    else if 0xF0 ≤ b0 ∧ b0 ≤ 0xF4 then
      match rest with
      | b1 :: b2 :: b3 :: _ =>
        if (if b0 = 0xF0 then 0x90 else 0x80) ≤ b1 ∧ b1 ≤ (if b0 = 0xF4 then 0x8F else 0xBF) ∧
            isContinuation b2 ∧ isContinuation b3 then 4
        else 1
      | _ => 1
    else 1

/-- Count the runes of `s`, at most `fuel` of them. -/
def runeCountAux : Nat → GoString → Nat
  | 0, _ => 0
  | _ + 1, [] => 0
  | fuel + 1, b :: rest => 1 + runeCountAux fuel ((b :: rest).drop (runeWidth (b :: rest)))

/-- The function utf8.RuneCountInString: the number of characters of a Go string. -/
def runeCount (s : GoString) : Nat := runeCountAux s.length s

/-- The function strings.Contains. -/
def contains (s sub : GoString) : Bool := s.tails.any (fun t => sub.isPrefixOf t)

/-- The function filepath.Base with `/` as the separator. -/
def base (path : GoString) : GoString :=
  if path = [] then lit "." else
  let path := (path.reverse.dropWhile (fun c => c == 47)).reverse
  let path := (path.reverse.takeWhile (fun c => c != 47)).reverse
  if path = [] then lit "/" else path

/-! ## Time -/

/-- An instant (nanoseconds since the Unix epoch) with the zone offset (seconds east
of UTC) it is displayed in.  No value of the program carries a monotonic reading
except the current time, which only enters `Sub`. -/
structure Time where
  unixNano : Int
  offset : Int
deriving DecidableEq

/-- The method Time.After. -/
def Time.After (t u : Time) : Bool := decide (u.unixNano < t.unixNano)

def minDuration : Int := -(2 ^ 63)
def maxDuration : Int := 2 ^ 63 - 1
def Second : Int := 1000000000
def Minute : Int := 60 * Second
def Hour : Int := 60 * Minute

/-- Wrap-around of a signed 64-bit integer. -/
def wrap64 (x : Int) : Int := (x + 2 ^ 63) % 2 ^ 64 - 2 ^ 63

/-- The method Time.Sub: the difference, saturated to the range of a Duration. -/
def Time.Sub (t u : Time) : Int :=
  let d := t.unixNano - u.unixNano
  if d < minDuration then minDuration else if maxDuration < d then maxDuration else d

/-- Go's `%` on integers: the remainder has the sign of the dividend. -/
def goRem (d m : Int) : Int := if 0 ≤ d then d % m else -((-d) % m)

/-- The helper lessThanHalf of package time, on unsigned 64-bit conversions. -/
def lessThanHalf (x y : Int) : Bool :=
  decide ((x % 2 ^ 64 + x % 2 ^ 64) % 2 ^ 64 < y % 2 ^ 64)

/-- The method Duration.Round: nearest multiple of `m`, halfway values away from zero. -/
def durationRound (d m : Int) : Int :=
  if m ≤ 0 then d else
  let r := goRem d m
  if d < 0 then
    let r := wrap64 (-r)
    if lessThanHalf r m then wrap64 (d + r)
    else
      let d1 := wrap64 (d - m + r)
      if d1 < d then d1 else minDuration
  else
    if lessThanHalf r m then wrap64 (d - r)
    else
      let d1 := wrap64 (d + m - r)
      if d < d1 then d1 else maxDuration

/-- The helper fmtFrac of package time: the fraction of `v / 10^prec` without trailing
zeros (with its decimal point, empty when the fraction is 0), pushed in front of `acc`;
and `v / 10^prec`. -/
def fmtFrac : Nat → Nat → Bool → GoString → GoString × Nat
  | 0, v, print, acc => (if print then 46 :: acc else acc, v)
  | prec + 1, v, print, acc =>
    let digit := v % 10
    let print := print || digit != 0
    fmtFrac prec (v / 10) print (if print then (48 + digit).toUInt8 :: acc else acc)

/-- The method Duration.String. -/
def durationString (d : Int) : GoString :=
  let u := d.natAbs
  let body : GoString :=
    if u < 1000000000 then
      if u = 0 then lit "0s"
      else if u < 1000 then
        let (f, v) := fmtFrac 0 u false (lit "ns")
        fmtInt v ++ f
      else if u < 1000000 then
        let (f, v) := fmtFrac 3 u false ([0xC2, 0xB5] ++ lit "s")
        fmtInt v ++ f
      else
        let (f, v) := fmtFrac 6 u false (lit "ms")
        fmtInt v ++ f
    else
      let (f, v) := fmtFrac 9 u false (lit "s")
      let s := fmtInt (v % 60) ++ f
      let v := v / 60
      if v > 0 then
        let s := fmtInt (v % 60) ++ lit "m" ++ s
        let v := v / 60
        if v > 0 then fmtInt v ++ lit "h" ++ s else s
      else s
  if d < 0 then lit "-" ++ body else body

/-- Year, month (1..12) and day of the month (1..31) of a day count since 1970-01-01
in the proleptic Gregorian calendar. -/
def civil (days : Int) : Int × Nat × Nat :=
  let z := days + 719468
  let era := z / 146097
  let doe := z - era * 146097
  let yoe := (doe - doe / 1460 + doe / 36524 - doe / 146096) / 365
  let doy := doe - (365 * yoe + yoe / 4 - yoe / 100)
  let mp := (5 * doy + 2) / 153
  let d := doy - (153 * mp + 2) / 5 + 1
  let m := if mp < 10 then mp + 3 else mp - 9
  let y := yoe + era * 400 + (if m ≤ 2 then 1 else 0)
  (y, m.toNat, d.toNat)

def shortMonthNames : List String :=
  ["Jan", "Feb", "Mar", "Apr", "May", "Jun", "Jul", "Aug", "Sep", "Oct", "Nov", "Dec"]

/-- The helper appendInt of package time: `x` in decimal, zero-padded to `width`. -/
def appendInt (x : Int) (width : Nat) : GoString :=
  let digits := fmtInt x.natAbs
  (if x < 0 then lit "-" else []) ++ List.replicate (width - digits.length) 48 ++ digits

/-- Seconds since the Unix epoch on the wall clock of the zone of `t`. -/
def Time.wallSeconds (t : Time) : Int := t.unixNano / 1000000000 + t.offset

/-- The call t.Format("Jan 2"): abbreviated month name and unpadded day, in the
zone of `t`. -/
def formatJan2 (t : Time) : GoString :=
  let (_, m, d) := civil (t.wallSeconds / 86400)
  lit (shortMonthNames.getD (m - 1) "") ++ lit " " ++ fmtInt d

/-- The call t.Format("2006-01-02 15:04"). -/
def formatMinute (t : Time) : GoString :=
  let secs := t.wallSeconds
  let (y, m, d) := civil (secs / 86400)
  let rem := secs % 86400
  appendInt y 4 ++ lit "-" ++ appendInt m 2 ++ lit "-" ++ appendInt d 2 ++ lit " "
    ++ appendInt (rem / 3600) 2 ++ lit ":" ++ appendInt (rem % 3600 / 60) 2

/-! ## Records -/

structure Message where
  Role : GoString
  Content : GoString
deriving DecidableEq

structure ChatLine where
  ParentUUID : Option GoString
  IsSidechain : Bool
  UserType : GoString
  CWD : GoString
  SessionID : GoString
  Version : GoString
  GitBranch : GoString
  Type_ : GoString
  Message : Message
  UUID : GoString
  Timestamp : Time
deriving DecidableEq

/-- The zero value of ChatLine. -/
def ChatLine.zero : ChatLine :=
  { ParentUUID := none, IsSidechain := false, UserType := [], CWD := [], SessionID := [],
    Version := [], GitBranch := [], Type_ := [], Message := ⟨[], []⟩, UUID := [],
    Timestamp := ⟨-62135596800000000000, 0⟩ }

/-! ## summarizeChat -/

/-- The variables the loop of summarizeChat updates. -/
structure ScanState where
  userMessages : List GoString
  assistantActions : List GoString
  projectDir : GoString
deriving DecidableEq

/-- One iteration of the loop of summarizeChat. -/
def scanStep (st : ScanState) (msg : ChatLine) : ScanState :=
  let st :=
    if msg.CWD ≠ [] ∧ st.projectDir = [] then { st with projectDir := base msg.CWD } else st
  if msg.Type_ = lit "user" then
    let content := trimSpace msg.Message.Content
    let content := if content.length > 100 then content.take 100 ++ lit "..." else content
    { st with userMessages := st.userMessages ++ [content] }
  else if msg.Type_ = lit "assistant" then
    if contains msg.Message.Content (lit "tool_calls") then
      { st with assistantActions := st.assistantActions ++ [lit "executed commands"] }
    else st
  else st

/-- The function summarizeChat, with the clock reading of time.Since as the input `now`. -/
def summarizeChat (now : Time) (messages : List ChatLine) : GoString :=
  match messages with
  | [] => lit "Empty session"
  | m :: ms =>
    let st := (m :: ms).foldl scanStep ⟨[], [], []⟩
    let summary := lit "[" ++ st.projectDir ++ lit "] "
    let summary :=
      if st.userMessages.length > 0 then
        let summary := summary ++ st.userMessages.headD []
        if st.userMessages.length > 1 then
          summary ++ (lit " (+" ++ fmtInt (st.userMessages.length - 1) ++ lit " more messages)")
        else summary
      else summary
    let lastMsg := (m :: ms).getLast (List.cons_ne_nil m ms)
    let duration := now.Sub lastMsg.Timestamp
    if duration < 24 * Hour then
      summary ++ (lit " (" ++ durationString (durationRound duration Minute) ++ lit " ago)")
    else
      summary ++ (lit " (" ++ formatJan2 lastMsg.Timestamp ++ lit ")")

/-! ## sort.Slice

The library's pattern-defeating quicksort, `pdqsort_func` of package sort, on a list
standing for the slice; `lt` compares elements and `lessAt`/`swapAt` are the
`Less` and `Swap` of the slice being sorted.  An index outside the slice, where Go
panics, leaves the data as it is; the correctness proof meets none. -/

section Pdq

variable {α : Type} (lt : α → α → Bool)

/-- The comparison `data.Less(i, j)`. -/
def lessAt (d : List α) (i j : Nat) : Bool :=
  match d[i]?, d[j]? with
  | some x, some y => lt x y
  | _, _ => false

/-- The exchange `data.Swap(i, j)`. -/
def swapAt (d : List α) (i j : Nat) : List α :=
  match d[i]?, d[j]? with
  | some x, some y => (d.set i y).set j x
  | _, _ => d

/-- The inner loop of insertionSort_func: `for j := i; j > a && Less(j, j-1); j--`. -/
def insertInner (a : Nat) : Nat → List α → List α
  | 0, d => d
  | j + 1, d =>
    if a < j + 1 && lessAt lt d (j + 1) j then insertInner a j (swapAt d (j + 1) j) else d

/-- The outer loop of insertionSort_func, `n` iterations left. -/
def insertOuter (a b : Nat) : Nat → Nat → List α → List α
  | 0, _, d => d
  | n + 1, i, d => if i < b then insertOuter a b n (i + 1) (insertInner lt a i d) else d

/-- The function insertionSort_func: sorts `data[a:b]`. -/
def insertionSort (d : List α) (a b : Nat) : List α :=
  insertOuter lt a b (b - (a + 1)) (a + 1) d

/-- The function siftDown_func, its loop run at most `fuel` times. -/
def siftDown (hi first : Nat) : Nat → Nat → List α → List α
  | 0, _, d => d
  | fuel + 1, root, d =>
    let child := 2 * root + 1
    if hi ≤ child then d else
    let child :=
      if child + 1 < hi && lessAt lt d (first + child) (first + child + 1) then child + 1
      else child
    if !lessAt lt d (first + root) (first + child) then d else
    siftDown hi first fuel child (swapAt d (first + root) (first + child))

/-- First loop of heapSort_func: `for i := (hi-1)/2; i >= 0; i--`. -/
def heapBuild (hi first : Nat) : Nat → List α → List α
  | 0, d => siftDown lt hi first hi 0 d
  | i + 1, d => heapBuild hi first i (siftDown lt hi first hi (i + 1) d)

/-- Second loop of heapSort_func: `for i := hi-1; i >= 0; i--`, the argument being `i+1`. -/
def heapPop (first : Nat) : Nat → List α → List α
  | 0, d => d
  | i + 1, d => heapPop first i (siftDown lt i first i 0 (swapAt d first (first + i)))

/-- The function heapSort_func. -/
def heapSort (d : List α) (a b : Nat) : List α :=
  let first := a
  let hi := b - a
  heapPop lt first hi (heapBuild lt hi first ((hi - 1) / 2) d)

/-- The function bits.Len: the number of bits needed to write `n`. -/
def bitsLenAux : Nat → Nat → Nat
  | 0, _ => 0
  | fuel + 1, n => if n = 0 then 0 else 1 + bitsLenAux fuel (n / 2)

def bitsLen (n : Nat) : Nat := bitsLenAux n n

/-- The method xorshift.Next on a 64-bit state.  It only picks the positions
breakPatterns_func exchanges; no property below depends on its shifts. -/
def xorshiftNext (r : Nat) : Nat :=
  let r := Nat.xor r ((r * 2 ^ 13) % 2 ^ 64)
  let r := Nat.xor r (r / 2 ^ 7)
  Nat.xor r ((r * 2 ^ 17) % 2 ^ 64)

/-- The loop of breakPatterns_func, `n` iterations left: the three positions from
`idx` on are exchanged with positions the generator picks. -/
def breakLoop (a length modulus idx : Nat) : Nat → Nat → Nat → List α → List α
  | 0, _, _, d => d
  | n + 1, i, random, d =>
    let random := xorshiftNext random
    let other := Nat.land random (modulus - 1)
    let other := if length ≤ other then other - length else other
    breakLoop a length modulus idx n (i + 1) random (swapAt d (idx + i) (a + other))

/-- The function breakPatterns_func. -/
def breakPatterns (d : List α) (a b : Nat) : List α :=
  let length := b - a
  if 8 ≤ length then
    let modulus := 2 ^ bitsLen length
    let idx := a + (length / 4) * 2 - 1
    breakLoop a length modulus idx 3 0 length d
  else d

inductive SortedHint where
  | unknownHint
  | increasingHint
  | decreasingHint
deriving DecidableEq

/-- The function order2_func. -/
def order2 (d : List α) (a b swaps : Nat) : Nat × Nat × Nat :=
  if lessAt lt d b a then (b, a, swaps + 1) else (a, b, swaps)

/-- The function median_func. -/
def median (d : List α) (a b c swaps : Nat) : Nat × Nat :=
  let (a, b, swaps) := order2 lt d a b swaps
  let (b, _, swaps) := order2 lt d b c swaps
  let (_, b, swaps) := order2 lt d a b swaps
  (b, swaps)

/-- The function medianAdjacent_func. -/
def medianAdjacent (d : List α) (a swaps : Nat) : Nat × Nat :=
  median lt d (a - 1) a (a + 1) swaps

/-- The function choosePivot_func. -/
def choosePivot (d : List α) (a b : Nat) : Nat × SortedHint :=
  let l := b - a
  let i := a + l / 4 * 1
  let j := a + l / 4 * 2
  let k := a + l / 4 * 3
  let chosen :=
    if 8 ≤ l then
      if 50 ≤ l then
        let mi := medianAdjacent lt d i 0
        let mj := medianAdjacent lt d j mi.2
        let mk := medianAdjacent lt d k mj.2
        median lt d mi.1 mj.1 mk.1 mk.2
      else median lt d i j k 0
    else (j, 0)
  if chosen.2 = 0 then (chosen.1, .increasingHint)
  else if chosen.2 = 12 then (chosen.1, .decreasingHint)
  else (chosen.1, .unknownHint)

/-- The function reverseRange_func, its loop run at most `fuel` times. -/
def reverseLoop : Nat → Nat → Nat → List α → List α
  | 0, _, _, d => d
  | fuel + 1, i, j, d => if i < j then reverseLoop fuel (i + 1) (j - 1) (swapAt d i j) else d

def reverseRange (d : List α) (a b : Nat) : List α := reverseLoop (b - a) a (b - 1) d

/-- The loop `for i <= j && p(i) { i++ }`. -/
def scanUp (p : Nat → Bool) (j : Nat) : Nat → Nat → Nat
  | 0, i => i
  | fuel + 1, i => if i ≤ j && p i then scanUp p j fuel (i + 1) else i

/-- The loop `for i <= j && p(j) { j-- }`. -/
def scanDown (p : Nat → Bool) (i : Nat) : Nat → Nat → Nat
  | 0, j => j
  | fuel + 1, j => if i ≤ j && p j then scanDown p i fuel (j - 1) else j

/-- The loop `for i < b && !Less(i, i-1) { i++ }` of partialInsertionSort_func. -/
def scanSorted (d : List α) (b : Nat) : Nat → Nat → Nat
  | 0, i => i
  | fuel + 1, i => if i < b && !lessAt lt d i (i - 1) then scanSorted d b fuel (i + 1) else i

/-- The loop `for j := i - 1; j >= 1; j--` of partialInsertionSort_func, from `j`. -/
def shiftLeft : Nat → List α → List α
  | 0, d => d
  | j + 1, d => if !lessAt lt d (j + 1) j then d else shiftLeft j (swapAt d (j + 1) j)

/-- The loop `for j := i + 1; j < b; j++` of partialInsertionSort_func, from `j`. -/
def shiftRight (b : Nat) : Nat → Nat → List α → List α
  | 0, _, d => d
  | fuel + 1, j, d =>
    if j < b then
      if !lessAt lt d j (j - 1) then d else shiftRight b fuel (j + 1) (swapAt d j (j - 1))
    else d

/-- The outer loop of partialInsertionSort_func, `steps` iterations left. -/
def partialLoop (a b : Nat) : Nat → Nat → List α → List α × Bool
  | 0, _, d => (d, false)
  | steps + 1, i, d =>
    let i := scanSorted lt d b (b - i) i
    if i = b then (d, true)
    else if b - a < 50 then (d, false)
    else
      let d := swapAt d i (i - 1)
      let d := if 2 ≤ i - a then shiftLeft lt (i - 1) d else d
      let d := if 2 ≤ b - i then shiftRight lt b (b - (i + 1)) (i + 1) d else d
      partialLoop a b steps i d

/-- The function partialInsertionSort_func. -/
def partialInsertionSort (d : List α) (a b : Nat) : List α × Bool :=
  partialLoop lt a b 5 (a + 1) d

/-- The loop of partitionEqual_func, run at most `fuel` times. -/
def partitionEqualLoop (a : Nat) : Nat → Nat → Nat → List α → List α × Nat
  | 0, i, _, d => (d, i)
  | fuel + 1, i, j, d =>
    let i := scanUp (fun i => !lessAt lt d a i) j (j + 1 - i) i
    let j := scanDown (fun j => lessAt lt d a j) i (j + 1 - i) j
    if j < i then (d, i)
    else partitionEqualLoop a fuel (i + 1) (j - 1) (swapAt d i j)

/-- The function partitionEqual_func. -/
def partitionEqual (d : List α) (a b pivot : Nat) : List α × Nat :=
  let d := swapAt d a pivot
  partitionEqualLoop lt a (b - a) (a + 1) (b - 1) d

/-- The second loop of partition_func, run at most `fuel` times. -/
def partitionLoop (a : Nat) : Nat → Nat → Nat → List α → List α × Nat
  | 0, _, j, d => (d, j)
  | fuel + 1, i, j, d =>
    let i := scanUp (fun i => lessAt lt d i a) j (j + 1 - i) i
    let j := scanDown (fun j => !lessAt lt d j a) i (j + 1 - i) j
    if j < i then (d, j)
    else partitionLoop a fuel (i + 1) (j - 1) (swapAt d i j)

/-- The function partition_func: the data, the new pivot index, alreadyPartitioned. -/
def partition (d : List α) (a b pivot : Nat) : List α × Nat × Bool :=
  let d := swapAt d a pivot
  let i := scanUp (fun i => lessAt lt d i a) (b - 1) (b - 1 + 1 - (a + 1)) (a + 1)
  let j := scanDown (fun j => !lessAt lt d j a) i (b - 1 + 1 - i) (b - 1)
  if j < i then (swapAt d j a, j, true)
  else
    let r := partitionLoop lt a (b - a) (i + 1) (j - 1) (swapAt d i j)
    (swapAt r.1 r.2 a, r.2, false)

/-- The function pdqsort_func: sorts `data[a:b]`; `none` when the fuel does not cover
the iterations and recursive calls. -/
def pdqsort : Nat → List α → Nat → Nat → Nat → Bool → Bool → Option (List α)
  | 0, _, _, _, _, _, _ => none
  | fuel + 1, d, a, b, limit, wasBalanced, wasPartitioned =>
    let length := b - a
    if length ≤ 12 then some (insertionSort lt d a b)
    else if limit = 0 then some (heapSort lt d a b)
    else
      let d := if !wasBalanced then breakPatterns d a b else d
      let limit := if !wasBalanced then limit - 1 else limit
      let chosen := choosePivot lt d a b
      let d := if chosen.2 = .decreasingHint then reverseRange d a b else d
      let pivot := if chosen.2 = .decreasingHint then (b - 1) - (chosen.1 - a) else chosen.1
      let hint := if chosen.2 = .decreasingHint then .increasingHint else chosen.2
      let tried :=
        if wasBalanced && wasPartitioned && hint = .increasingHint then
          partialInsertionSort lt d a b
        else (d, false)
      if tried.2 then some tried.1
      else if 0 < a && !lessAt lt tried.1 (a - 1) pivot then
        let r := partitionEqual lt tried.1 a b pivot
        pdqsort fuel r.1 r.2 b limit wasBalanced wasPartitioned
      else
        let r := partition lt tried.1 a b pivot
        let mid := r.2.1
        let leftLen := mid - a
        let rightLen := b - mid
        let balanceThreshold := length / 8
        if leftLen < rightLen then
          match pdqsort fuel r.1 a mid limit true true with
          | none => none
          | some d =>
            pdqsort fuel d (mid + 1) b limit (decide (balanceThreshold ≤ leftLen)) r.2.2
        else
          match pdqsort fuel r.1 (mid + 1) b limit true true with
          | none => none
          | some d => pdqsort fuel d a mid limit (decide (balanceThreshold ≤ rightLen)) r.2.2

/-- The function sort.Slice. -/
def sortSlice (d : List α) : Option (List α) :=
  pdqsort lt (d.length + 1) d 0 d.length (bitsLen d.length) true true

end Pdq

/-! ## readJSONL -/

/-- A Go error value. -/
structure GoError where
  text : GoString
deriving DecidableEq

/-- The error bufio.ErrTooLong. -/
def ErrTooLong : GoError := ⟨lit "bufio.Scanner: token too long"⟩

/-- The buffer bound handed to scanner.Buffer: 64 MB.  A line of that many bytes fills
the buffer before its end is seen, and the scanner stops with ErrTooLong. -/
def maxTokenSize : Nat := 64 * 1024 * 1024

/-- The loop `for scanner.Scan()` of readJSONL over the lines of the file, with
json.Unmarshal into a fresh ChatLine as `decode` (`none` when it reports an error);
the second component is scanner.Err(). -/
def scanLoop (decode : GoString → Option ChatLine) :
    List GoString → List ChatLine → List ChatLine × Option GoError
  | [], messages => (messages, none)
  | line :: rest, messages =>
    if maxTokenSize ≤ line.length then (messages, some ErrTooLong)
    else
      match decode line with
      | none => scanLoop decode rest messages
      | some msg => scanLoop decode rest (messages ++ [msg])

/-- The function readJSONL; `file` is the outcome of os.Open, the lines of the file
when it opens. -/
def readJSONL (decode : GoString → Option ChatLine) (file : Except GoError (List GoString)) :
    List ChatLine × Option GoError :=
  match file with
  | .error err => ([], some err)
  | .ok lines => scanLoop decode lines []

/-! ## summarizeWithClaude -/

/-- One iteration of the loop of summarizeWithClaude that builds the conversation. -/
def conversationStep (conversation : GoString) (msg : ChatLine) : GoString :=
  if msg.Type_ = lit "user" ∨ msg.Type_ = lit "assistant" then
    let role := msg.Type_
    let content := msg.Message.Content
    let content := if content.length > 500 then content.take 500 ++ lit "..." else content
    conversation ++ (role ++ lit ": " ++ content ++ lit "\n")
  else conversation

/-- The conversation summarizeWithClaude builds: its loop stops after the record of
index 20. -/
def conversationOf (messages : List ChatLine) : GoString :=
  (messages.take 21).foldl conversationStep []

/-- The prompt of summarizeWithClaude around the conversation. -/
def promptOf (conversation : GoString) : GoString :=
  lit "Summarize this conversation in one concise line (max 100 chars). Focus on the main task or problem being addressed:\n\n"
    ++ conversation ++ lit "\n\nSummary:"

/-- The function summarizeWithClaude; `run name args` is exec.Command(name, args...).Output(),
the output and the error of the external process. -/
def summarizeWithClaude (run : GoString → List GoString → GoString × Option GoError)
    (now : Time) (messages : List ChatLine) : GoString × Option GoError :=
  match messages with
  | [] => (lit "Empty session", none)
  | m :: ms =>
    let prompt := promptOf (conversationOf (m :: ms))
    let (output, err) := run (lit "claude") [lit "--no-conversation", prompt]
    match err with
    | some _ => (summarizeChat now (m :: ms), none)
    | none =>
      let summary := trimSpace output
      let summary := if summary.length > 100 then summary.take 100 else summary
      (summary, none)

/-! ## Sessions and their ranking -/

structure Session where
  ProjectPath : GoString
  SessionID : GoString
  FilePath : GoString
  ModTime : Time
  Messages : List ChatLine
  Summary : GoString
  LastActive : Time
deriving DecidableEq

/-- The function strings.TrimSuffix. -/
def trimSuffix (s suffix : GoString) : GoString :=
  if suffix.isSuffixOf s then s.take (s.length - suffix.length) else s

/-- The session loadSessions builds for one transcript file (its summary left to the
caller): the identifier is the file name without its extension, LastActive the
timestamp of the last record, or the modification time without records. -/
def newSession (entryName fileName filePath : GoString) (modTime : Time)
    (messages : List ChatLine) : Session :=
  let sessionID := trimSuffix fileName (lit ".jsonl")
  let lastActive :=
    match messages.getLast? with
    | some last => last.Timestamp
    | none => modTime
  { ProjectPath := entryName, SessionID := sessionID, FilePath := filePath, ModTime := modTime,
    Messages := messages, Summary := [], LastActive := lastActive }

/-- The comparison handed to sort.Slice in loadSessions. -/
def sessionLess (s t : Session) : Bool := s.LastActive.After t.LastActive

/-- The ranking step of loadSessions: sort.Slice on the discovered sessions. -/
def rankSessions (sessions : List Session) : Option (List Session) :=
  sortSlice sessionLess sessions

/-! ## main: the list items, the lookup of the choice and the handoff -/

structure Item where
  title : GoString
  description : GoString
  sessionID : GoString
deriving DecidableEq

/-- The method item.FilterValue. -/
def Item.FilterValue (i : Item) : GoString := i.title ++ lit " " ++ i.description

/-- The map sessionMap of main; a pointer `&sessions[i]` is the index `i`. -/
abbrev SessionMap := GoString → Option Nat

/-- One iteration of the loop of main that fills `items` and `sessionMap`. -/
def indexStep (acc : List Item × SessionMap) (p : Nat × Session) : List Item × SessionMap :=
  let i := p.1
  let session := p.2
  let desc := lit "Session: " ++ session.SessionID ++ lit " | " ++ formatMinute session.ModTime
  (acc.1 ++ [{ title := session.Summary, description := desc, sessionID := session.SessionID }],
   fun k => if k = session.SessionID then some i else acc.2 k)

/-- The items and the session map main builds from the ranked sessions. -/
def buildIndex (sessions : List Session) : List Item × SessionMap :=
  sessions.enum.foldl indexStep ([], fun _ => none)

/-- The choice the list model records on enter with item `i` highlighted. -/
def choiceOf (sessions : List Session) (i : Nat) : GoString :=
  match (buildIndex sessions).1[i]? with
  | some it => it.sessionID
  | none => []

/-- The session main resumes for a choice: none for the empty choice, else
`sessionMap[choice]`. -/
def lookupSession (sessions : List Session) (choice : GoString) : Option Session :=
  if choice ≠ [] then
    match (buildIndex sessions).2 choice with
    | some p => sessions[p]?
    | none => none
  else none

/-- The loop of main that resolves the working directory; `pathExists p` says that
os.Stat(p) reports no error. -/
def resolveLoop (pathExists : GoString → Bool) : GoString → List ChatLine → GoString
  | cwd, [] => cwd
  | cwd, msg :: rest =>
    if msg.CWD ≠ [] then
      let cwd := msg.CWD
      if pathExists cwd then cwd
      else resolveLoop pathExists [] rest
    else resolveLoop pathExists cwd rest

/-- The working directory main resolves from the records of a session (empty: none). -/
def resolveCwd (pathExists : GoString → Bool) (messages : List ChatLine) : GoString :=
  resolveLoop pathExists [] messages

/-- The command main runs: its arguments and its directory (empty: the caller's). -/
structure Cmd where
  Name : GoString
  Args : List GoString
  Dir : GoString
deriving DecidableEq

/-- The command main launches for the session it resumes. -/
def resumeCmd (pathExists : GoString → Bool) (session : Session) : Cmd :=
  let cwd := resolveCwd pathExists session.Messages
  let cmd : Cmd := { Name := lit "claude", Args := [lit "--resume", session.SessionID], Dir := [] }
  if cwd ≠ [] then { cmd with Dir := cwd } else cmd

/-! ## Notions the statements use -/

/-- A decoder for the example: it accepts the line `ok` only. -/
def sampleDecode (line : GoString) : Option ChatLine :=
  if line = lit "ok" then some ChatLine.zero else none

/-- The records of the example: working directories `/vanished` and `/exists`. -/
def vanishedThenExists : List ChatLine :=
  [{ ChatLine.zero with CWD := lit "/vanished" }, { ChatLine.zero with CWD := lit "/exists" }]

/-- The cut of summarizeWithClaude: the first 100 bytes of an output longer than that. -/
def clipOutput (summary : GoString) : GoString :=
  if summary.length > 100 then summary.take 100 else summary

/-- An external process that always succeeds with the output `ok`. -/
def alwaysOk : GoString → List GoString → GoString × Option GoError :=
  fun _ _ => (lit "ok", none)

/-- An external process that always fails, with some output before the failure. -/
def alwaysFails : GoString → List GoString → GoString × Option GoError :=
  fun _ _ => (lit "partial output", some ⟨lit "exit status 1"⟩)

/-- A record sequence of one record, of type "user". -/
def oneUserRecord : List ChatLine :=
  [{ ChatLine.zero with Type_ := lit "user", Message := ⟨[], lit "hello"⟩ }]

/-- The list item main builds for a session. -/
def itemOf (session : Session) : Item :=
  { title := session.Summary,
    description := lit "Session: " ++ session.SessionID ++ lit " | " ++ formatMinute session.ModTime,
    sessionID := session.SessionID }

/-- The sessions of the example: the file `s1.jsonl` in two project directories. -/
def sameNameSessions : List Session :=
  [newSession (lit "projA") (lit "s1.jsonl") (lit "/p/projA/s1.jsonl") ⟨2, 0⟩ [],
   newSession (lit "projB") (lit "s1.jsonl") (lit "/p/projB/s1.jsonl") ⟨1, 0⟩ []]

/-- The sessions of the example: two files of different names in two project
directories. -/
def distinctSessions : List Session :=
  [newSession (lit "projA") (lit "s1.jsonl") (lit "/p/projA/s1.jsonl") ⟨2, 0⟩ [],
   newSession (lit "projB") (lit "s2.jsonl") (lit "/p/projB/s2.jsonl") ⟨1, 0⟩ []]

/-- Records of type "user". -/
def isUser (m : ChatLine) : Bool := decide (m.Type_ = lit "user")

/-- Records that carry a working directory. -/
def hasCwd (m : ChatLine) : Bool := decide (m.CWD ≠ [])

/-- The project label: the final path component of the working directory of the first
record that has one, empty without such a record. -/
def projectLabel (messages : List ChatLine) : GoString :=
  match messages.find? hasCwd with
  | some m => base m.CWD
  | none => []

/-- A user message cut to its first 100 bytes, with the ellipsis marker when cut. -/
def clipMessage (content : GoString) : GoString :=
  if content.length > 100 then content.take 100 ++ lit "..." else content

/-- The text a user record contributes: its content trimmed, then cut. -/
def userText (m : ChatLine) : GoString := clipMessage (trimSpace m.Message.Content)

/-- The number of user records. -/
def userCount (messages : List ChatLine) : Nat := (messages.filter isUser).length

/-- The suffix that counts the further user messages. -/
def countSuffix (n : Nat) : GoString :=
  if 1 < n then lit " (+" ++ fmtInt (n - 1) ++ lit " more messages)" else []

/-- The recency suffix for a last timestamp `t` read at `now`. -/
def recencySuffix (now t : Time) : GoString :=
  if now.Sub t < 24 * Hour then
    lit " (" ++ durationString (durationRound (now.Sub t) Minute) ++ lit " ago)"
  else lit " (" ++ formatJan2 t ++ lit ")"

/-- The summary before its recency suffix. -/
def summaryHead (messages : List ChatLine) : GoString :=
  lit "[" ++ projectLabel messages ++ lit "] " ++
    (match messages.find? isUser with
      | some u => userText u
      | none => []) ++ countSuffix (userCount messages)

/-- A clock reading for the examples: 2025-11-04 12:00:00 UTC. -/
def sampleNow : Time := ⟨1762257600000000000, 0⟩

/-- The record sequence of the test "Long message truncated": one user message of 150
bytes `a`, working directory `/test/dir`, one hour before `sampleNow`. -/
def longRecord : ChatLine :=
  { ChatLine.zero with
    Type_ := lit "user", Message := ⟨[], List.replicate 150 97⟩, CWD := lit "/test/dir",
    Timestamp := ⟨1762254000000000000, 0⟩ }

def longMessage : List ChatLine := [longRecord]

/-- The records of the test "Multiple messages": two user messages, 30 and 20 minutes
before `sampleNow`. -/
def firstRecord : ChatLine :=
  { ChatLine.zero with
    Type_ := lit "user", Message := ⟨[], lit "First message"⟩, CWD := lit "/project",
    Timestamp := ⟨1762255800000000000, 0⟩ }

def secondRecord : ChatLine :=
  { ChatLine.zero with
    Type_ := lit "user", Message := ⟨[], lit "Second message"⟩,
    Timestamp := ⟨1762256400000000000, 0⟩ }

def twoMessages : List ChatLine := [firstRecord, secondRecord]

/-- A user message of 61 characters in 121 bytes: `a` and 60 times `é`. -/
def accented : GoString := 97 :: (List.replicate 60 [0xC3, 0xA9]).flatten

/-- A user record with the message `accented`, one hour before `sampleNow`. -/
def accentedRecord : ChatLine :=
  { ChatLine.zero with
    Type_ := lit "user", Message := ⟨[], accented⟩, CWD := lit "/test/dir",
    Timestamp := ⟨1762254000000000000, 0⟩ }

/-- The record of the example: a user message exactly 24 hours before `sampleNow`. -/
def dayOldRecord : ChatLine :=
  { ChatLine.zero with
    Type_ := lit "user", Message := ⟨[], lit "hello"⟩, CWD := lit "/project",
    Timestamp := ⟨1762171200000000000, 0⟩ }

/-- Data `d'` arises from `d` by rearranging the positions `a ≤ k < b` only. -/
structure Shuf {α : Type} (a b : Nat) (d d' : List α) : Prop where
  len : d'.length = d.length
  perm : d'.Perm d
  out : ∀ k, k < a ∨ b ≤ k → d'[k]? = d[k]?
  all : ∀ P : α → Prop, (∀ k, a ≤ k → k < b → ∀ x, d[k]? = some x → P x) →
    ∀ k, a ≤ k → k < b → ∀ x, d'[k]? = some x → P x

/-- The key of the element at index `i` (0 outside the data). -/
def keyAt {α : Type} (key : α → Int) (d : List α) (i : Nat) : Int :=
  match d[i]? with
  | some x => key x
  | none => 0

/-- The keys of `d[a:b]` do not decrease. -/
def AdjSorted {α : Type} (key : α → Int) (d : List α) (a b : Nat) : Prop :=
  ∀ k, a ≤ k → k + 1 < b → keyAt key d k ≤ keyAt key d (k + 1)

/-- No key of `d[a:b]` is below the key just before the range. -/
def Bounded {α : Type} (key : α → Int) (d : List α) (a b : Nat) : Prop :=
  0 < a → ∀ k, a ≤ k → k < b → keyAt key d (a - 1) ≤ keyAt key d k

/-- The children of node `i` of the heap `d[first : first+hi]` are not above it. -/
def HeapAt {α : Type} (key : α → Int) (d : List α) (first hi i : Nat) : Prop :=
  ∀ c, (c = 2 * i + 1 ∨ c = 2 * i + 2) → c < hi →
    keyAt key d (first + c) ≤ keyAt key d (first + i)

/-- The key of the ranking: later sessions first. -/
def rankKey (s : Session) : Int := -s.LastActive.unixNano

/-- Sorted by LastActive, latest first, ties allowed. -/
def Descending (l : List Session) : Prop :=
  l.Sorted (fun s t => t.LastActive.unixNano ≤ s.LastActive.unixNano)

/-- Three sessions discovered in the order second latest, latest, earliest. -/
def threeSessions : List Session :=
  [newSession (lit "proj") (lit "b.jsonl") [] ⟨2, 0⟩ [],
   newSession (lit "proj") (lit "a.jsonl") [] ⟨3, 0⟩ [],
   newSession (lit "proj") (lit "c.jsonl") [] ⟨1, 0⟩ []]

/-- A session without records, last active at the instant `t`; its identifier is `n`. -/
def tieSession (n : Nat) (t : Int) : Session :=
  newSession (lit "proj") (fmtInt n ++ lit ".jsonl") [] ⟨t, 0⟩ []

/-- Thirteen discovered sessions, all last active at the same instant but the seventh,
which is older. -/
def tiedSessions : List Session :=
  (List.range 13).map (fun n => tieSession n (if n = 6 then 0 else 1))

/-- The ranking of the thirteen sessions. -/
def tiedRanked : List Session :=
  [9, 1, 2, 3, 4, 5, 7, 8, 0, 10, 11, 12].map (fun n => tieSession n 1) ++ [tieSession 6 0]

/-- Three sessions, the first and the third last active at the same instant. -/
def smallTie : List Session := [tieSession 0 1, tieSession 1 2, tieSession 2 1]

/-! ## Theorems -/

set_option maxRecDepth 100000

section Proofs

variable {α : Type} (key : α → Int) (lt : α → α → Bool)

theorem scanLoop_spec (decode : GoString → Option ChatLine) (lines : List GoString) :
    ∀ acc : List ChatLine, (∀ l ∈ lines, l.length < maxTokenSize) →
      scanLoop decode lines acc = (acc ++ lines.filterMap decode, none) := by
  induction lines with
  | nil => intro acc _; simp [scanLoop]
  | cons line rest ih =>
    intro acc h
    have hl : ¬ maxTokenSize ≤ line.length := Nat.not_le.mpr (h line (List.mem_cons_self _ _))
    have hr : ∀ l ∈ rest, l.length < maxTokenSize := fun l hm => h l (List.mem_cons_of_mem _ hm)
    cases hd : decode line with
    | none => simp [scanLoop, hl, hd, ih acc hr, List.filterMap_cons]
    | some msg => simp [scanLoop, hl, hd, ih (acc ++ [msg]) hr, List.filterMap_cons]

/-- C2: on a file that opens and whose lines are all within the scanner bound, readJSONL
returns exactly the records of the lines that decode, in file order, and no error. -/
theorem readJSONL_keeps_decodable_lines (decode : GoString → Option ChatLine)
    (lines : List GoString) (h : ∀ l ∈ lines, l.length < maxTokenSize) :
    readJSONL decode (.ok lines) = (lines.filterMap decode, none) := by
  simpa [readJSONL] using scanLoop_spec decode lines [] h

theorem readJSONL_keeps_decodable_lines_witness :
    (∀ l ∈ [lit "ok", lit "\x7bbroken", lit "ok"], l.length < maxTokenSize) ∧
    readJSONL sampleDecode (.ok [lit "ok", lit "\x7bbroken", lit "ok"]) =
      ([lit "ok", lit "\x7bbroken", lit "ok"].filterMap sampleDecode, none) :=
  ⟨by decide, readJSONL_keeps_decodable_lines sampleDecode _ (by decide)⟩

theorem resolveLoop_spec (pathExists : GoString → Bool) (messages : List ChatLine) :
    ∀ cwd, resolveLoop pathExists cwd messages =
      match messages.find? (fun m => decide (m.CWD ≠ []) && pathExists m.CWD) with
      | some m => m.CWD
      | none => if ∃ m ∈ messages, m.CWD ≠ [] then [] else cwd := by
  induction messages with
  | nil => intro cwd; simp [resolveLoop]
  | cons msg rest ih =>
    intro cwd
    by_cases hc : msg.CWD = []
    · simp [resolveLoop, hc, List.find?_cons, ih cwd]
    · by_cases he : pathExists msg.CWD = true
      · simp [resolveLoop, hc, List.find?_cons, he]
      · have he' : pathExists msg.CWD = false := by simpa using he
        simp only [resolveLoop, ne_eq, hc, not_false_eq_true, ↓reduceIte, he',
          Bool.false_eq_true, List.find?_cons, decide_True, Bool.and_false, ih []]
        cases List.find? (fun m => decide (m.CWD ≠ []) && pathExists m.CWD) rest with
        | some m => rfl
        | none => simp [hc]

/-- C8: the working directory main resolves is that of the first record whose working
directory is non-empty and exists; it is empty (no override) exactly when no record has
one; a candidate that does not exist does not stop the scan. -/
theorem resolveCwd_first_existing (pathExists : GoString → Bool) (messages : List ChatLine) :
    (resolveCwd pathExists messages =
      match messages.find? (fun m => decide (m.CWD ≠ []) && pathExists m.CWD) with
      | some m => m.CWD
      | none => []) ∧
    (resolveCwd pathExists messages = [] ↔
      ∀ m ∈ messages, ¬ (m.CWD ≠ [] ∧ pathExists m.CWD = true)) ∧
    resolveCwd (fun p => p == lit "/exists") vanishedThenExists = lit "/exists" := by
  have h1 : resolveCwd pathExists messages =
      match messages.find? (fun m => decide (m.CWD ≠ []) && pathExists m.CWD) with
      | some m => m.CWD
      | none => [] := by
    rw [resolveCwd, resolveLoop_spec]
    cases List.find? (fun m => decide (m.CWD ≠ []) && pathExists m.CWD) messages with
    | some m => rfl
    | none => simp
  refine ⟨h1, ?_, by decide⟩
  rw [h1]
  cases hf : List.find? (fun m => decide (m.CWD ≠ []) && pathExists m.CWD) messages with
  | some m =>
    have hp := List.find?_some hf
    have hm := List.mem_of_find?_eq_some hf
    simp only [ne_eq, Bool.and_eq_true, decide_eq_true_eq] at hp
    constructor
    · intro h0; exact absurd h0 hp.1
    · intro hall; exact absurd hp (hall m hm)
  | none =>
    simp only [true_iff]
    intro m hm hcontra
    have := List.find?_eq_none.mp hf m hm
    simp [hcontra.1, hcontra.2] at this

theorem clipOutput_length (s : GoString) : (clipOutput s).length ≤ 100 := by
  unfold clipOutput
  split
  · simp [List.length_take]
  · omega

/-- C9, the claim fails: on the empty record sequence the process is not consulted, and
the result is the fixed text although the process succeeds with another output. -/
theorem summarizeWithClaude_empty_not_output :
    (alwaysOk (lit "claude") [lit "--no-conversation", promptOf (conversationOf [])]).2 = none ∧
    (summarizeWithClaude alwaysOk ⟨0, 0⟩ []).1 = lit "Empty session" ∧
    (summarizeWithClaude alwaysOk ⟨0, 0⟩ []).1 ≠
      clipOutput (trimSpace
        (alwaysOk (lit "claude") [lit "--no-conversation", promptOf (conversationOf [])]).1) := by
  decide

/-- C9, amended: summarizeWithClaude never returns an error; on the empty sequence it
returns the fixed text; when the process fails its result is summarizeChat of the same
records; on a non-empty sequence, when the process succeeds, the result is the trimmed
output cut to its first 100 bytes. -/
theorem summarizeWithClaude_result (run : GoString → List GoString → GoString × Option GoError)
    (now : Time) (messages : List ChatLine) :
    (summarizeWithClaude run now messages).2 = none ∧
    (messages = [] → (summarizeWithClaude run now messages).1 = lit "Empty session") ∧
    ((run (lit "claude") [lit "--no-conversation", promptOf (conversationOf messages)]).2 ≠ none →
      (summarizeWithClaude run now messages).1 = summarizeChat now messages) ∧
    (messages ≠ [] →
      (run (lit "claude") [lit "--no-conversation", promptOf (conversationOf messages)]).2 = none →
      (summarizeWithClaude run now messages).1 =
        clipOutput (trimSpace
          (run (lit "claude") [lit "--no-conversation", promptOf (conversationOf messages)]).1) ∧
      (summarizeWithClaude run now messages).1.length ≤ 100) := by
  cases messages with
  | nil => simp [summarizeWithClaude, summarizeChat]
  | cons m ms =>
    cases hr : run (lit "claude") [lit "--no-conversation", promptOf (conversationOf (m :: ms))] with
    | mk output err =>
      cases err with
      | some e => simp [summarizeWithClaude, hr]
      | none =>
        have hc := clipOutput_length (trimSpace output)
        simp only [clipOutput] at hc
        simp [summarizeWithClaude, hr, clipOutput]
        exact hc

theorem summarizeWithClaude_result_witness :
    oneUserRecord ≠ [] ∧
    (alwaysOk (lit "claude")
      [lit "--no-conversation", promptOf (conversationOf oneUserRecord)]).2 = none ∧
    (summarizeWithClaude alwaysOk ⟨0, 0⟩ oneUserRecord).1 = lit "ok" ∧
    (alwaysFails (lit "claude")
      [lit "--no-conversation", promptOf (conversationOf oneUserRecord)]).2 ≠ none ∧
    (summarizeWithClaude alwaysFails ⟨0, 0⟩ oneUserRecord).1 =
      summarizeChat ⟨0, 0⟩ oneUserRecord := by
  refine ⟨by decide, by decide, ?_, by decide, ?_⟩
  · rw [((summarizeWithClaude_result alwaysOk ⟨0, 0⟩ oneUserRecord).2.2.2
      (by decide) (by decide)).1]
    decide
  · exact (summarizeWithClaude_result alwaysFails ⟨0, 0⟩ oneUserRecord).2.2.1 (by decide)

theorem foldl_indexStep (sessions : List Session) :
    ∀ (n : Nat) (acc : List Item × SessionMap),
      ((sessions.enumFrom n).foldl indexStep acc).1 = acc.1 ++ sessions.map itemOf ∧
      (∀ k, (∀ s ∈ sessions, s.SessionID ≠ k) →
        ((sessions.enumFrom n).foldl indexStep acc).2 k = acc.2 k) ∧
      ((sessions.map (fun s => s.SessionID)).Nodup → ∀ j s, sessions[j]? = some s →
        ((sessions.enumFrom n).foldl indexStep acc).2 s.SessionID = some (n + j)) := by
  induction sessions with
  | nil => intro n acc; simp
  | cons x rest ih =>
    intro n acc
    obtain ⟨h1, h2, h3⟩ := ih (n + 1) (indexStep acc (n, x))
    simp only [List.enumFrom_cons, List.foldl_cons]
    refine ⟨?_, ?_, ?_⟩
    · rw [h1]; simp [indexStep, itemOf]
    · intro k hk
      rw [h2 k (fun s hs => hk s (List.mem_cons_of_mem _ hs))]
      have : ¬ k = x.SessionID := fun h => hk x (List.mem_cons_self _ _) h.symm
      simp [indexStep, this]
    · intro hnd j s hj
      simp only [List.map_cons, List.nodup_cons] at hnd
      cases j with
      | zero =>
        simp only [List.getElem?_cons_zero, Option.some.injEq] at hj
        subst hj
        rw [h2 x.SessionID]
        · simp [indexStep]
        · intro s hs heq
          exact hnd.1 (List.mem_map.mpr ⟨s, hs, heq⟩)
      | succ j =>
        simp only [List.getElem?_cons_succ] at hj
        rw [h3 hnd.2 j s hj]
        congr 1; omega

/-- C10, the claim fails: two sessions of different project directories with the same
file name, in ranked order; with the first item highlighted main looks up the second. -/
theorem lookupSession_same_name_other_project :
    (sameNameSessions.map (fun s => (s.ProjectPath, s.SessionID))).Nodup ∧
    rankSessions sameNameSessions = some sameNameSessions ∧
    lookupSession sameNameSessions (choiceOf sameNameSessions 0) = sameNameSessions[1]? ∧
    lookupSession sameNameSessions (choiceOf sameNameSessions 0) ≠ sameNameSessions[0]? := by
  decide

/-- C10, amended: when the session identifiers are pairwise distinct in the whole list,
the session main looks up from the identifier of the i-th item, if that identifier is not
empty, is the i-th session. -/
theorem lookupSession_choice (sessions : List Session) (i : Nat) (s : Session)
    (hnodup : (sessions.map (fun s => s.SessionID)).Nodup) (hi : sessions[i]? = some s)
    (hne : s.SessionID ≠ []) :
    lookupSession sessions (choiceOf sessions i) = some s := by
  obtain ⟨h1, -, h3⟩ := foldl_indexStep sessions 0 ([], fun _ => none)
  have hitems : (buildIndex sessions).1 = sessions.map itemOf := by
    simpa [buildIndex, List.enum] using h1
  have hchoice : choiceOf sessions i = s.SessionID := by
    simp [choiceOf, hitems, List.getElem?_map, hi, itemOf]
  have hmap : (buildIndex sessions).2 s.SessionID = some i := by
    have := h3 hnodup i s hi
    simpa [buildIndex, List.enum] using this
  simp [lookupSession, hchoice, hne, hmap, hi]

theorem lookupSession_choice_witness :
    (distinctSessions.map (fun s => s.SessionID)).Nodup ∧
    distinctSessions[1]? =
      some (newSession (lit "projB") (lit "s2.jsonl") (lit "/p/projB/s2.jsonl") ⟨1, 0⟩ []) ∧
    (newSession (lit "projB") (lit "s2.jsonl") (lit "/p/projB/s2.jsonl") ⟨1, 0⟩ []).SessionID
      ≠ [] ∧
    lookupSession distinctSessions (choiceOf distinctSessions 1) =
      some (newSession (lit "projB") (lit "s2.jsonl") (lit "/p/projB/s2.jsonl") ⟨1, 0⟩ []) :=
  ⟨by decide, by decide, by decide,
    lookupSession_choice distinctSessions 1 _ (by decide) (by decide) (by decide)⟩

theorem base_ne_nil (path : GoString) : base path ≠ [] := by
  unfold base
  split
  · decide
  · simp only
    split
    · decide
    · assumption

theorem foldl_scanStep (messages : List ChatLine) :
    ∀ st : ScanState,
      (messages.foldl scanStep st).projectDir =
        (if st.projectDir = [] then projectLabel messages else st.projectDir) ∧
      (messages.foldl scanStep st).userMessages =
        st.userMessages ++ (messages.filter isUser).map userText := by
  induction messages with
  | nil =>
    intro st
    by_cases hs : st.projectDir = [] <;> simp [projectLabel, hs]
  | cons m ms ih =>
    intro st
    obtain ⟨h1, h2⟩ := ih (scanStep st m)
    simp only [List.foldl_cons]
    have hp : (scanStep st m).projectDir =
        if m.CWD ≠ [] ∧ st.projectDir = [] then base m.CWD else st.projectDir := by
      unfold scanStep
      dsimp only
      split_ifs <;> rfl
    have hu : (scanStep st m).userMessages =
        if m.Type_ = lit "user" then st.userMessages ++ [userText m] else st.userMessages := by
      unfold scanStep userText clipMessage
      dsimp only
      split_ifs <;> rfl
    constructor
    · rw [h1, hp]
      by_cases hs : st.projectDir = []
      · by_cases hc : m.CWD = []
        · simp [hs, hc, projectLabel, List.find?_cons, hasCwd]
        · simp [hs, hc, projectLabel, List.find?_cons, hasCwd, base_ne_nil]
      · simp [hs]
    · rw [h2, hu]
      by_cases hty : m.Type_ = lit "user"
      · simp [hty, List.filter_cons, isUser]
      · simp [hty, List.filter_cons, isUser]

theorem head_filter_map (messages : List ChatLine) :
    ((messages.filter isUser).map userText).headD [] =
      match messages.find? isUser with
      | some u => userText u
      | none => [] := by
  induction messages with
  | nil => rfl
  | cons m ms ih =>
    by_cases h : isUser m = true
    · simp [List.filter_cons, List.find?_cons, h]
    · simpa [List.filter_cons, List.find?_cons, h] using ih

theorem find_isUser_none (messages : List ChatLine) (h : messages.find? isUser = none) :
    userCount messages = 0 := by
  unfold userCount
  rw [List.length_eq_zero, List.filter_eq_nil_iff]
  intro m hm
  have := List.find?_eq_none.mp h m hm
  simpa using this

/-- The summary of a non-empty record sequence: label, first user text, count of the
further user messages, recency of the last record. -/
theorem summarizeChat_eq (now : Time) (messages : List ChatLine) (last : ChatLine)
    (hl : messages.getLast? = some last) :
    summarizeChat now messages = summaryHead messages ++ recencySuffix now last.Timestamp := by
  cases messages with
  | nil => simp at hl
  | cons m ms =>
    have hlast : (m :: ms).getLast (List.cons_ne_nil m ms) = last := by
      rw [List.getLast?_eq_getLast _ (List.cons_ne_nil m ms)] at hl
      exact Option.some.inj hl
    obtain ⟨hp, hu⟩ := foldl_scanStep (m :: ms) ⟨[], [], []⟩
    simp only [↓reduceIte, List.nil_append] at hp hu
    have hhead := head_filter_map (m :: ms)
    simp only [summarizeChat, hlast, hp, hu, hhead, recencySuffix, summaryHead]
    have hlen : (((m :: ms).filter isUser).map userText).length = userCount (m :: ms) := by
      simp [userCount]
    rw [hlen]
    cases hf : List.find? isUser (m :: ms) with
    | none =>
      have h0 := find_isUser_none _ hf
      simp [h0, countSuffix]
      split <;> simp
    | some u =>
      have hpos : 0 < userCount (m :: ms) := by
        unfold userCount
        apply List.length_pos_of_mem (a := u)
        exact List.mem_filter.mpr ⟨List.mem_of_find?_eq_some hf, List.find?_some hf⟩
      by_cases h1 : 1 < userCount (m :: ms)
      · simp [hpos, h1, countSuffix]
        split <;> simp
      · simp [hpos, h1, countSuffix]
        split <;> simp

theorem clipMessage_length (c : GoString) : (clipMessage c).length ≤ 103 := by
  unfold clipMessage
  split
  · have : (lit "...").length = 3 := by decide
    simp only [List.length_append, List.length_take, this]
    omega
  · omega

theorem sub_range (now t : Time) : minDuration ≤ now.Sub t ∧ now.Sub t ≤ maxDuration := by
  unfold Time.Sub minDuration maxDuration
  dsimp only
  split_ifs <;> omega

theorem wrap64_of_range (x : Int) (h1 : -9223372036854775808 ≤ x)
    (h2 : x ≤ 9223372036854775807) : wrap64 x = x := by
  unfold wrap64
  norm_num
  omega

theorem lessThanHalf_minute (r : Int) (h1 : 0 ≤ r) (h2 : r < 60000000000) :
    lessThanHalf r 60000000000 = decide (2 * r < 60000000000) := by
  unfold lessThanHalf
  norm_num
  have e : (r + r) % 18446744073709551616 = r + r := by omega
  rw [e]
  constructor <;> intro h <;> omega

theorem durationRound_neg (d : Int) (hneg : d < 0) (hlo : -9223372036854775808 ≤ d) :
    durationRound d 60000000000 =
      if 2 * ((-d) % 60000000000) < 60000000000 then d + (-d) % 60000000000
      else d - 60000000000 + (-d) % 60000000000 := by
  have hr : 0 ≤ (-d) % 60000000000 ∧ (-d) % 60000000000 < 60000000000 := by omega
  have hg : goRem d 60000000000 = -((-d) % 60000000000) := by
    unfold goRem; rw [if_neg (by omega)]
  have hw : wrap64 (- -((-d) % 60000000000)) = (-d) % 60000000000 := by
    rw [neg_neg]; exact wrap64_of_range _ (by omega) (by omega)
  unfold durationRound
  rw [if_neg (by norm_num)]
  simp only [hg, hw, if_pos hneg, lessThanHalf_minute _ hr.1 hr.2, decide_eq_true_eq]
  by_cases hh : 2 * ((-d) % 60000000000) < 60000000000
  · rw [if_pos hh, if_pos hh]
    exact wrap64_of_range _ (by omega) (by omega)
  · rw [if_neg hh, if_neg hh]
    have hq : -d = 60000000000 * ((-d) / 60000000000) + (-d) % 60000000000 := by omega
    have hrange : -9223372036854775808 ≤ d - 60000000000 + (-d) % 60000000000 := by
      generalize (-d) / 60000000000 = q at hq
      generalize (-d) % 60000000000 = r at hq hr hh
      omega
    rw [wrap64_of_range _ hrange (by omega)]
    rw [if_pos (by omega)]

theorem durationRound_nonneg (d : Int) (h0 : 0 ≤ d) (hhi : d < 86400000000000) :
    durationRound d 60000000000 =
      if 2 * (d % 60000000000) < 60000000000 then d - d % 60000000000
      else d + 60000000000 - d % 60000000000 := by
  have hr : 0 ≤ d % 60000000000 ∧ d % 60000000000 < 60000000000 := by omega
  have hg : goRem d 60000000000 = d % 60000000000 := by
    unfold goRem; rw [if_pos h0]
  unfold durationRound
  rw [if_neg (by norm_num)]
  simp only [hg, if_neg (not_lt.mpr h0), lessThanHalf_minute _ hr.1 hr.2, decide_eq_true_eq]
  by_cases hh : 2 * (d % 60000000000) < 60000000000
  · rw [if_pos hh, if_pos hh]
    exact wrap64_of_range _ (by omega) (by omega)
  · rw [if_neg hh, if_neg hh]
    rw [wrap64_of_range _ (by omega) (by omega)]
    rw [if_pos (by omega)]

theorem durationRound_minute (d : Int) (hlo : minDuration ≤ d) (hhi : d < 24 * Hour) :
    durationRound d Minute % Minute = 0 ∧
      2 * (d - durationRound d Minute) ≤ Minute ∧ 2 * (durationRound d Minute - d) ≤ Minute := by
  have hM : Minute = 60000000000 := by norm_num [Minute, Second]
  have hH : (24 : Int) * Hour = 86400000000000 := by norm_num [Hour, Minute, Second]
  have hmin : minDuration = -9223372036854775808 := by norm_num [minDuration]
  rw [hM]
  rw [hH] at hhi
  rw [hmin] at hlo
  by_cases hneg : d < 0
  · rw [durationRound_neg d hneg hlo]
    split_ifs <;> omega
  · rw [durationRound_nonneg d (not_lt.mp hneg) hhi]
    split_ifs <;> omega

/-- C1, the claim fails: the summary of the 150-byte message has 122 bytes, the label,
the 100 bytes kept, the ellipsis marker and the recency suffix. -/
theorem summarizeChat_longer_than_100 :
    summarizeChat sampleNow longMessage =
      lit "[dir] " ++ List.replicate 100 97 ++ lit "... (1h0m0s ago)" ∧
    (summarizeChat sampleNow longMessage).length = 122 ∧
    ¬ (summarizeChat sampleNow longMessage).length ≤ 100 := by
  decide

/-- C1, amended: only the user-message part of the summary is bounded, by 103 bytes;
the summary has at most the length of the label plus 106 plus the lengths of the count
suffix and of the recency suffix. -/
theorem summarizeChat_length_le (now : Time) (messages : List ChatLine) :
    (summarizeChat now messages).length ≤
      (projectLabel messages).length + 106 + (countSuffix (userCount messages)).length +
        (match messages.getLast? with
          | some last => (recencySuffix now last.Timestamp).length
          | none => 0) := by
  cases hl : messages.getLast? with
  | none =>
    have : messages = [] := List.getLast?_eq_none_iff.mp hl
    subst this
    have : (lit "Empty session").length = 13 := by decide
    simp only [summarizeChat, this]
    omega
  | some last =>
    rw [summarizeChat_eq now messages last hl]
    have h1 : (lit "[").length = 1 := by decide
    have h2 : (lit "] ").length = 2 := by decide
    simp only [summaryHead, List.length_append, h1, h2]
    have h3 : (match messages.find? isUser with
        | some u => userText u
        | none => []).length ≤ 103 := by
      cases messages.find? isUser with
      | none => simp
      | some u => exact clipMessage_length _
    omega

/-- C3: with a first user record `u` among `N` user records, the summary is `[L] `, the
trimmed and cut text of `u`, then ` (+N-1 more messages)` exactly when `N > 1`, then the
recency suffix of the last record; `L` is the final path component of the first non-empty
working directory, empty without one. -/
theorem summarizeChat_label_first_count (now : Time) (messages : List ChatLine)
    (u last : ChatLine) (hu : messages.find? isUser = some u)
    (hl : messages.getLast? = some last) :
    1 ≤ userCount messages ∧
    projectLabel messages =
      (match messages.find? (fun m => decide (m.CWD ≠ [])) with
        | some m => base m.CWD
        | none => []) ∧
    summarizeChat now messages =
      lit "[" ++ projectLabel messages ++ lit "] " ++
        clipMessage (trimSpace u.Message.Content) ++
        (if 1 < userCount messages then
          lit " (+" ++ fmtInt (userCount messages - 1) ++ lit " more messages)"
        else []) ++
        recencySuffix now last.Timestamp := by
  refine ⟨?_, rfl, ?_⟩
  · unfold userCount
    apply List.length_pos_of_mem (a := u)
    exact List.mem_filter.mpr ⟨List.mem_of_find?_eq_some hu, List.find?_some hu⟩
  · rw [summarizeChat_eq now messages last hl]
    simp only [summaryHead, hu, userText, countSuffix]

theorem summarizeChat_label_first_count_witness :
    twoMessages.find? isUser = some firstRecord ∧
    twoMessages.getLast? = some secondRecord ∧
    summarizeChat sampleNow twoMessages =
      lit "[project] First message (+1 more messages) (20m0s ago)" := by
  refine ⟨by decide, by decide, ?_⟩
  rw [(summarizeChat_label_first_count sampleNow twoMessages firstRecord secondRecord
    (by decide) (by decide)).2.2]
  decide

theorem runeCountAux_ascii : ∀ (s : GoString) (fuel : Nat), s.length ≤ fuel →
    (∀ b ∈ s, b < 0x80) → runeCountAux fuel s = s.length := by
  intro s
  induction s with
  | nil => intro fuel _ _; cases fuel <;> rfl
  | cons b rest ih =>
    intro fuel hf hall
    cases fuel with
    | zero => simp at hf
    | succ fuel =>
      have hb : b < 0x80 := hall b (List.mem_cons_self _ _)
      have hw : runeWidth (b :: rest) = 1 := by
        simp only [runeWidth, hb, if_true]
      have hrest := ih fuel (by simpa using hf) (fun c hc => hall c (List.mem_cons_of_mem _ hc))
      simp only [runeCountAux, hw, List.drop_succ_cons, List.drop_zero, hrest, List.length_cons]
      omega

/-- A string of ASCII characters has as many characters as bytes. -/
theorem runeCount_ascii (s : GoString) (h : ∀ b ∈ s, b < 0x80) : runeCount s = s.length :=
  runeCountAux_ascii s s.length (le_refl _) h

/-- C4, the claim fails: the trimmed content `a` and 60 times `é` has 61 characters, not
more than 100, yet it does not appear in full: it is cut after its 100th byte, inside the
50th `é`, and the ellipsis marker is added. -/
theorem summarizeChat_cuts_inside_character :
    [accentedRecord].find? isUser = some accentedRecord ∧
    trimSpace accentedRecord.Message.Content = accented ∧
    runeCount accented = 61 ∧ accented.length = 121 ∧
    summarizeChat sampleNow [accentedRecord] =
      lit "[dir] " ++ (accented.take 100 ++ lit "...") ++ lit " (1h0m0s ago)" ∧
    ¬ summarizeChat sampleNow [accentedRecord] =
      lit "[dir] " ++ accented ++ lit " (1h0m0s ago)" ∧
    accented.take 100 = 97 :: (List.replicate 49 [0xC3, 0xA9]).flatten ++ [0xC3] := by
  decide

/-- C4, amended: the user-message part of the summary, which follows `[L] `, is the first
100 bytes of the trimmed content of the first user record followed by `...` when that
content is longer than 100 bytes, and the trimmed content itself, with nothing added,
when it has 100 bytes or fewer; for content of ASCII characters the bytes are the
characters. -/
theorem summarizeChat_user_part (now : Time) (messages : List ChatLine)
    (u last : ChatLine) (hu : messages.find? isUser = some u)
    (hl : messages.getLast? = some last) :
    (100 < (trimSpace u.Message.Content).length →
      summarizeChat now messages =
        (lit "[" ++ projectLabel messages ++ lit "] ") ++
          ((trimSpace u.Message.Content).take 100 ++ lit "...") ++
          (countSuffix (userCount messages) ++ recencySuffix now last.Timestamp) ∧
      ((trimSpace u.Message.Content).take 100 ++ lit "...").length = 103) ∧
    ((trimSpace u.Message.Content).length ≤ 100 →
      summarizeChat now messages =
        (lit "[" ++ projectLabel messages ++ lit "] ") ++ trimSpace u.Message.Content ++
          (countSuffix (userCount messages) ++ recencySuffix now last.Timestamp)) ∧
    ((∀ b ∈ trimSpace u.Message.Content, b < 0x80) →
      runeCount (trimSpace u.Message.Content) = (trimSpace u.Message.Content).length ∧
      runeCount ((trimSpace u.Message.Content).take 100) =
        ((trimSpace u.Message.Content).take 100).length) := by
  have h := summarizeChat_eq now messages last hl
  simp only [summaryHead, hu, userText, clipMessage] at h
  refine ⟨?_, ?_, ?_⟩
  · intro hlong
    rw [h, if_pos hlong]
    have h3 : (lit "...").length = 3 := by decide
    simp only [List.append_assoc, List.length_append, List.length_take, h3, true_and]
    omega
  · intro hshort
    rw [h, if_neg (by omega)]
    simp only [List.append_assoc]
  · intro hascii
    exact ⟨runeCount_ascii _ hascii,
      runeCount_ascii _ (fun b hb => hascii b (List.mem_of_mem_take hb))⟩

theorem summarizeChat_user_part_witness :
    longMessage.find? isUser = some longRecord ∧
    longMessage.getLast? = some longRecord ∧
    100 < (trimSpace longRecord.Message.Content).length ∧
    (∀ b ∈ trimSpace longRecord.Message.Content, b < 0x80) ∧
    summarizeChat sampleNow longMessage =
      lit "[dir] " ++ (List.replicate 100 97 ++ lit "...") ++ lit " (1h0m0s ago)" ∧
    runeCount (trimSpace longRecord.Message.Content) = 150 := by
  refine ⟨by decide, by decide, by decide, by decide, ?_, ?_⟩
  · rw [((summarizeChat_user_part sampleNow longMessage longRecord longRecord
      (by decide) (by decide)).1 (by decide)).1]
    decide
  · rw [((summarizeChat_user_part sampleNow longMessage longRecord longRecord
      (by decide) (by decide)).2.2 (by decide)).1]
    decide

/-- C5: the summary of a non-empty record sequence ends with a recency suffix fixed by
the clock reading and the timestamp of the last record: ` (<d> ago)` with `d` the age
rounded to a multiple of a minute at most half a minute away, when the age is less than
24 hours, and ` (<Month Day>)` of the timestamp from 24 hours on.  The age is time.Since,
the difference of the two instants when it fits a Duration. -/
theorem summarizeChat_recency (now : Time) (messages : List ChatLine) (last : ChatLine)
    (hl : messages.getLast? = some last) :
    (now.Sub last.Timestamp < 24 * Hour →
      summarizeChat now messages = summaryHead messages ++
        (lit " (" ++ durationString (durationRound (now.Sub last.Timestamp) Minute) ++
          lit " ago)") ∧
      durationRound (now.Sub last.Timestamp) Minute % Minute = 0 ∧
      2 * (now.Sub last.Timestamp - durationRound (now.Sub last.Timestamp) Minute) ≤ Minute ∧
      2 * (durationRound (now.Sub last.Timestamp) Minute - now.Sub last.Timestamp) ≤ Minute) ∧
    (24 * Hour ≤ now.Sub last.Timestamp →
      summarizeChat now messages = summaryHead messages ++
        (lit " (" ++ formatJan2 last.Timestamp ++ lit ")")) ∧
    (minDuration ≤ now.unixNano - last.Timestamp.unixNano →
      now.unixNano - last.Timestamp.unixNano ≤ maxDuration →
      now.Sub last.Timestamp = now.unixNano - last.Timestamp.unixNano) := by
  have h := summarizeChat_eq now messages last hl
  refine ⟨?_, ?_, ?_⟩
  · intro hlt
    refine ⟨?_, durationRound_minute _ (sub_range now last.Timestamp).1 hlt⟩
    rw [h, recencySuffix, if_pos hlt]
  · intro hge
    rw [h, recencySuffix, if_neg (not_lt.mpr hge)]
  · intro h1 h2
    unfold Time.Sub
    dsimp only
    rw [if_neg (not_lt.mpr h1), if_neg (not_lt.mpr h2)]

theorem summarizeChat_recency_witness :
    [dayOldRecord].getLast? = some dayOldRecord ∧
    sampleNow.Sub dayOldRecord.Timestamp = 24 * Hour ∧
    summarizeChat sampleNow [dayOldRecord] = lit "[project] hello (Nov 3)" := by
  refine ⟨by decide, by decide, ?_⟩
  rw [(summarizeChat_recency sampleNow [dayOldRecord] dayOldRecord (by decide)).2.1 (by decide)]
  decide

theorem swapAt_length (d : List α) (i j : Nat) : (swapAt d i j).length = d.length := by
  unfold swapAt
  split <;> simp

theorem swapAt_getElem? (d : List α) (i j k : Nat) (hi : i < d.length) (hj : j < d.length) :
    (swapAt d i j)[k]? = if k = j then d[i]? else if k = i then d[j]? else d[k]? := by
  unfold swapAt
  rw [List.getElem?_eq_getElem hi, List.getElem?_eq_getElem hj]
  simp only [List.getElem?_set, List.length_set]
  by_cases h1 : j = k
  · subst h1; simp [hj]
  · by_cases h2 : i = k
    · subst h2
      simp [h1, hi, Ne.symm h1]
    · simp [h1, h2, Ne.symm h1, Ne.symm h2]

theorem cons_set_perm (x y : α) : ∀ (d : List α) (j : Nat), d[j]? = some y →
    (y :: d.set j x).Perm (x :: d) := by
  intro d
  induction d with
  | nil => intro j h; simp at h
  | cons z d ih =>
    intro j h
    cases j with
    | zero =>
      simp only [List.getElem?_cons_zero, Option.some.injEq] at h
      subst h
      simpa using List.Perm.swap x z d
    | succ j =>
      simp only [List.getElem?_cons_succ] at h
      simp only [List.set_cons_succ]
      exact ((List.Perm.swap z y _).trans ((ih j h).cons z)).trans (List.Perm.swap x z d)

theorem set_set_perm_lt : ∀ (d : List α) (i j : Nat) (x y : α), i < j →
    d[i]? = some x → d[j]? = some y → ((d.set i y).set j x).Perm d := by
  intro d
  induction d with
  | nil => intro i j x y _ h; simp at h
  | cons z d ih =>
    intro i j x y hij hx hy
    cases j with
    | zero => omega
    | succ j =>
      cases i with
      | zero =>
        simp only [List.getElem?_cons_zero, Option.some.injEq] at hx
        simp only [List.getElem?_cons_succ] at hy
        subst hx
        simpa using cons_set_perm z y d j hy
      | succ i =>
        simp only [List.getElem?_cons_succ] at hx hy
        simpa using (ih i j x y (by omega) hx hy).cons z

theorem swapAt_perm (d : List α) (i j : Nat) : (swapAt d i j).Perm d := by
  unfold swapAt
  cases hx : d[i]? with
  | none => simp
  | some x =>
    cases hy : d[j]? with
    | none => simp
    | some y =>
      simp only
      rcases Nat.lt_trichotomy i j with h | h | h
      · exact set_set_perm_lt d i j x y h hx hy
      · subst h
        have : x = y := by rw [hx] at hy; exact Option.some.inj hy
        subst this
        have hi : i < d.length := by
          rcases Nat.lt_or_ge i d.length with h | h
          · exact h
          · rw [List.getElem?_eq_none h] at hx; simp at hx
        rw [List.set_set]
        have : d.set i x = d := by
          apply List.ext_getElem?
          intro k
          rw [List.getElem?_set]
          by_cases hk : i = k
          · subst hk; simp [hi, hx]
          · simp [hk]
        rw [this]
      · have hne : j ≠ i := by omega
        rw [List.set_comm _ _ _ (Ne.symm hne)]
        exact set_set_perm_lt d j i y x h hy hx

theorem Shuf.refl (a b : Nat) (d : List α) : Shuf a b d d :=
  ⟨rfl, List.Perm.refl _, fun _ _ => rfl, fun _ h => h⟩

theorem Shuf.trans {a b : Nat} {d d' d'' : List α} (h1 : Shuf a b d d') (h2 : Shuf a b d' d'') :
    Shuf a b d d'' :=
  ⟨h2.len.trans h1.len, h2.perm.trans h1.perm,
   fun k hk => (h2.out k hk).trans (h1.out k hk),
   fun P hP => h2.all P (h1.all P hP)⟩

theorem Shuf.mono {a b a' b' : Nat} {d d' : List α} (h : Shuf a b d d') (ha : a' ≤ a)
    (hb : b ≤ b') : Shuf a' b' d d' := by
  refine ⟨h.len, h.perm, fun k hk => h.out k (by omega), ?_⟩
  intro P hP k hk1 hk2 x hx
  by_cases hin : a ≤ k ∧ k < b
  · exact h.all P (fun k h1 h2 => hP k (by omega) (by omega)) k hin.1 hin.2 x hx
  · rw [h.out k (by omega)] at hx
    exact hP k hk1 hk2 x hx

theorem Shuf.swap (a b : Nat) (d : List α) (i j : Nat) (hi1 : a ≤ i) (hi2 : i < b)
    (hj1 : a ≤ j) (hj2 : j < b) (hb : b ≤ d.length) : Shuf a b d (swapAt d i j) := by
  have hi : i < d.length := by omega
  have hj : j < d.length := by omega
  refine ⟨swapAt_length d i j, swapAt_perm d i j, ?_, ?_⟩
  · intro k hk
    rw [swapAt_getElem? d i j k hi hj]
    have h1 : k ≠ j := by omega
    have h2 : k ≠ i := by omega
    simp [h1, h2]
  · intro P hP k hk1 hk2 x hx
    rw [swapAt_getElem? d i j k hi hj] at hx
    split_ifs at hx
    · exact hP i hi1 hi2 x hx
    · exact hP j hj1 hj2 x hx
    · exact hP k hk1 hk2 x hx

theorem keyAt_swapAt (d : List α) (i j k : Nat) (hi : i < d.length) (hj : j < d.length) :
    keyAt key (swapAt d i j) k =
      if k = j then keyAt key d i else if k = i then keyAt key d j else keyAt key d k := by
  unfold keyAt
  rw [swapAt_getElem? d i j k hi hj]
  split_ifs <;> rfl

theorem lessAt_eq (lt : α → α → Bool) (hlt : ∀ x y, lt x y = decide (key x < key y))
    (d : List α) (i j : Nat) (hi : i < d.length) (hj : j < d.length) :
    lessAt lt d i j = decide (keyAt key d i < keyAt key d j) := by
  unfold lessAt keyAt
  rw [List.getElem?_eq_getElem hi, List.getElem?_eq_getElem hj]
  exact hlt _ _

theorem Shuf.keyAt_out {a b : Nat} {d d' : List α} (h : Shuf a b d d') (k : Nat)
    (hk : k < a ∨ b ≤ k) : keyAt key d' k = keyAt key d k := by
  unfold keyAt
  rw [h.out k hk]

theorem Shuf.keyAt_all {a b : Nat} {d d' : List α} (h : Shuf a b d d') (hb : b ≤ d.length)
    (p : Int → Prop) (hp : ∀ k, a ≤ k → k < b → p (keyAt key d k)) :
    ∀ k, a ≤ k → k < b → p (keyAt key d' k) := by
  intro k hk1 hk2
  have hk : k < d'.length := by rw [h.len]; omega
  have := h.all (fun x => p (key x)) (fun k h1 h2 x hx => by
    have := hp k h1 h2
    unfold keyAt at this
    rw [hx] at this
    exact this) k hk1 hk2 (d'[k]) (List.getElem?_eq_getElem hk)
  unfold keyAt
  rw [List.getElem?_eq_getElem hk]
  exact this

theorem Bounded.shuf {a b : Nat} {d d' : List α} (hB : Bounded key d a b) (h : Shuf a b d d')
    (hb : b ≤ d.length) : Bounded key d' a b := by
  intro ha k hk1 hk2
  rw [h.keyAt_out key (a - 1) (by omega)]
  exact h.keyAt_all key hb (fun v => keyAt key d (a - 1) ≤ v) (hB ha) k hk1 hk2

theorem AdjSorted.le {d : List α} {a b : Nat} (h : AdjSorted key d a b) :
    ∀ n i, a ≤ i → i + n < b → keyAt key d i ≤ keyAt key d (i + n) := by
  intro n
  induction n with
  | zero => intro i _ _; exact le_refl _
  | succ n ih =>
    intro i hi hb
    have h1 := ih i hi (by omega)
    have h2 := h (i + n) (by omega) (by omega)
    rw [← Nat.add_assoc]
    omega

theorem insertInner_spec (hlt : ∀ x y, lt x y = decide (key x < key y))
    (a i : Nat) : ∀ (j : Nat) (d : List α), a ≤ j → j ≤ i → i < d.length →
    (∀ k, a ≤ k → k + 1 ≤ i → k + 1 ≠ j → keyAt key d k ≤ keyAt key d (k + 1)) →
    (a < j → j < i → keyAt key d (j - 1) ≤ keyAt key d (j + 1)) →
    Shuf a (i + 1) d (insertInner lt a j d) ∧ AdjSorted key (insertInner lt a j d) a (i + 1) := by
  intro j
  induction j with
  | zero =>
    intro d _ _ _ h1 _
    refine ⟨Shuf.refl _ _ _, ?_⟩
    intro k hk1 hk2
    exact h1 k hk1 (by omega) (by omega)
  | succ j ih =>
    intro d haj hji hil h1 h2
    unfold insertInner
    rw [lessAt_eq key lt hlt d (j + 1) j (by omega) (by omega)]
    by_cases hc : a < j + 1 ∧ keyAt key d (j + 1) < keyAt key d j
    · have hcond : (decide (a < j + 1) && decide (keyAt key d (j + 1) < keyAt key d j)) = true := by
        simp [hc.1, hc.2]
      rw [if_pos hcond]
      have hsw := Shuf.swap a (i + 1) d (j + 1) j (by omega) (by omega) (by omega) (by omega)
        (by omega)
      have hk : ∀ k, keyAt key (swapAt d (j + 1) j) k =
          if k = j then keyAt key d (j + 1) else if k = j + 1 then keyAt key d j
          else keyAt key d k :=
        fun k => keyAt_swapAt key d (j + 1) j k (by omega) (by omega)
      obtain ⟨hs, hsorted⟩ := ih (swapAt d (j + 1) j) (by omega) (by omega)
        (by rw [swapAt_length]; exact hil)
        (by
          intro k hk1 hk2 hk3
          rw [hk k, hk (k + 1)]
          by_cases e2 : k = j + 1
          · subst e2
            have := h2 (by omega) (by omega)
            simp only [Nat.add_sub_cancel] at this
            split_ifs <;> omega
          · by_cases e1 : k = j
            · subst e1
              split_ifs <;> omega
            · have := h1 k hk1 hk2 (by omega)
              split_ifs <;> omega)
        (by
          intro hj1 hj2
          rw [hk (j - 1), hk (j + 1)]
          have := h1 (j - 1) (by omega) (by omega) (by omega)
          have e : j - 1 + 1 = j := by omega
          rw [e] at this
          split_ifs <;> omega)
      exact ⟨hsw.trans hs, hsorted⟩
    · have hcond : ¬ (decide (a < j + 1) && decide (keyAt key d (j + 1) < keyAt key d j)) = true := by
        simp only [Bool.and_eq_true, decide_eq_true_eq]
        exact hc
      rw [if_neg hcond]
      refine ⟨Shuf.refl _ _ _, ?_⟩
      intro k hk1 hk2
      by_cases e : k = j
      · subst e
        have : ¬ keyAt key d (k + 1) < keyAt key d k := fun h => hc ⟨by omega, h⟩
        omega
      · exact h1 k hk1 (by omega) (by omega)

theorem insertOuter_spec (hlt : ∀ x y, lt x y = decide (key x < key y))
    (a b : Nat) : ∀ (n i : Nat) (d : List α), a < i → i + n = b →
    b ≤ d.length → AdjSorted key d a i →
    Shuf a b d (insertOuter lt a b n i d) ∧ AdjSorted key (insertOuter lt a b n i d) a b := by
  intro n
  induction n with
  | zero =>
    intro i d _ hin _ hs
    have : i = b := by omega
    subst this
    exact ⟨Shuf.refl _ _ _, hs⟩
  | succ n ih =>
    intro i d hai hin hb hs
    unfold insertOuter
    rw [if_pos (by omega)]
    obtain ⟨h1, h2⟩ := insertInner_spec key lt hlt a i i d (by omega) (le_refl _) (by omega)
      (fun k hk1 hk2 hk3 => hs k hk1 (by omega)) (fun _ h => absurd h (lt_irrefl _))
    obtain ⟨h3, h4⟩ := ih (i + 1) (insertInner lt a i d) (by omega) (by omega)
      (by rw [h1.len]; exact hb) h2
    exact ⟨(h1.mono (le_refl _) (by omega)).trans h3, h4⟩

theorem insertionSort_spec (hlt : ∀ x y, lt x y = decide (key x < key y))
    (d : List α) (a b : Nat) (hb : b ≤ d.length) :
    Shuf a b d (insertionSort lt d a b) ∧ AdjSorted key (insertionSort lt d a b) a b := by
  unfold insertionSort
  by_cases h : a + 1 ≤ b
  · exact insertOuter_spec key lt hlt a b (b - (a + 1)) (a + 1) d (by omega) (by omega) hb
      (fun k hk1 hk2 => by omega)
  · have e : b - (a + 1) = 0 := by omega
    rw [e]
    exact ⟨Shuf.refl _ _ _, fun k hk1 hk2 => by omega⟩

theorem siftDown_spec (hlt : ∀ x y, lt x y = decide (key x < key y))
    (hi first lo : Nat) : ∀ (fuel root : Nat) (d : List α),
    hi ≤ root + fuel → lo ≤ root → first + hi ≤ d.length →
    (∀ i, lo ≤ i → i ≠ root → HeapAt key d first hi i) →
    (∀ p c, lo ≤ p → (root = 2 * p + 1 ∨ root = 2 * p + 2) →
      (c = 2 * root + 1 ∨ c = 2 * root + 2) → c < hi →
      keyAt key d (first + c) ≤ keyAt key d (first + p)) →
    Shuf (first + lo) (first + hi) d (siftDown lt hi first fuel root d) ∧
      ∀ i, lo ≤ i → HeapAt key (siftDown lt hi first fuel root d) first hi i := by
  intro fuel
  induction fuel with
  | zero =>
    intro root d hf hlo hlen hA hB
    refine ⟨Shuf.refl _ _ _, ?_⟩
    intro i hi1
    by_cases e : i = root
    · subst e; intro c hc1 hc2; omega
    · exact hA i hi1 e
  | succ fuel ih =>
    intro root d hf hlo hlen hA hB
    unfold siftDown
    dsimp only
    by_cases h0 : hi ≤ 2 * root + 1
    · rw [if_pos h0]
      refine ⟨Shuf.refl _ _ _, ?_⟩
      intro i hi1
      by_cases e : i = root
      · subst e; intro c hc1 hc2; omega
      · exact hA i hi1 e
    · rw [if_neg h0]
      -- the larger child
      obtain ⟨ch, hch, hch1, hch2, hch3⟩ : ∃ ch,
          (if (decide (2 * root + 1 + 1 < hi) &&
              lessAt lt d (first + (2 * root + 1)) (first + (2 * root + 1) + 1)) = true
            then 2 * root + 1 + 1 else 2 * root + 1) = ch ∧
          (ch = 2 * root + 1 ∨ ch = 2 * root + 2) ∧ ch < hi ∧
          ∀ c, (c = 2 * root + 1 ∨ c = 2 * root + 2) → c < hi →
            keyAt key d (first + c) ≤ keyAt key d (first + ch) := by
        by_cases h1 : 2 * root + 1 + 1 < hi
        · rw [lessAt_eq key lt hlt d _ _ (by omega) (by omega)]
          have e : first + (2 * root + 1) + 1 = first + (2 * root + 2) := by omega
          rw [e]
          by_cases h2 : keyAt key d (first + (2 * root + 1)) <
              keyAt key d (first + (2 * root + 2))
          · refine ⟨2 * root + 2, by simp [h1, h2], Or.inr rfl, by omega, ?_⟩
            intro c hc _
            rcases hc with hc | hc
            · subst hc; omega
            · subst hc; exact le_refl _
          · refine ⟨2 * root + 1, by simp [h1, h2], Or.inl rfl, by omega, ?_⟩
            intro c hc _
            rcases hc with hc | hc
            · subst hc; exact le_refl _
            · subst hc; omega
        · refine ⟨2 * root + 1, by simp [h1], Or.inl rfl, by omega, ?_⟩
          intro c hc hc'
          rcases hc with hc | hc
          · subst hc; exact le_refl _
          · omega
      rw [hch]
      rw [lessAt_eq key lt hlt d _ _ (by omega) (by omega)]
      by_cases h3 : keyAt key d (first + root) < keyAt key d (first + ch)
      · have hcond : ¬ (!decide (keyAt key d (first + root) < keyAt key d (first + ch))) = true := by
          simp [h3]
        rw [if_neg hcond]
        have hk : ∀ k, keyAt key (swapAt d (first + root) (first + ch)) k =
            if k = first + ch then keyAt key d (first + root)
            else if k = first + root then keyAt key d (first + ch) else keyAt key d k :=
          fun k => keyAt_swapAt key d _ _ k (by omega) (by omega)
        have hsw := Shuf.swap (first + lo) (first + hi) d (first + root) (first + ch)
          (by omega) (by omega) (by omega) (by omega) hlen
        obtain ⟨hs, hheap⟩ := ih ch (swapAt d (first + root) (first + ch)) (by omega) (by omega)
          (by rw [swapAt_length]; exact hlen)
          (by
            intro i hi1 hi2 c hc1 hc2
            rw [hk (first + c), hk (first + i)]
            by_cases e : i = root
            · subst e
              have := hch3 c hc1 hc2
              split_ifs <;> omega
            · have h5 := hA i hi1 e c hc1 hc2
              by_cases e2 : c = root
              · subst e2
                have := hB i ch hi1 hc1 hch1 hch2
                split_ifs <;> omega
              · split_ifs <;> omega)
          (by
            intro p c hp1 hp2 hc1 hc2
            have e : p = root := by omega
            subst e
            rw [hk (first + c), hk (first + p)]
            have := hA ch (by omega) (by omega) c hc1 hc2
            split_ifs <;> omega)
        exact ⟨hsw.trans hs, hheap⟩
      · have hcond : (!decide (keyAt key d (first + root) < keyAt key d (first + ch))) = true := by
          simp [h3]
        rw [if_pos hcond]
        refine ⟨Shuf.refl _ _ _, ?_⟩
        intro i hi1
        by_cases e : i = root
        · subst e
          intro c hc1 hc2
          have := hch3 c hc1 hc2
          omega
        · exact hA i hi1 e

theorem heapBuild_spec (hlt : ∀ x y, lt x y = decide (key x < key y))
    (hi first : Nat) : ∀ (i : Nat) (d : List α), first + hi ≤ d.length →
    (∀ k, i < k → HeapAt key d first hi k) →
    Shuf first (first + hi) d (heapBuild lt hi first i d) ∧
      ∀ k, HeapAt key (heapBuild lt hi first i d) first hi k := by
  intro i
  induction i with
  | zero =>
    intro d hlen hA
    unfold heapBuild
    obtain ⟨h1, h2⟩ := siftDown_spec key lt hlt hi first 0 hi 0 d (by omega) (le_refl _) hlen
      (fun i _ hi2 => hA i (by omega)) (fun p c _ hp _ _ => by omega)
    exact ⟨h1, fun k => h2 k (Nat.zero_le _)⟩
  | succ i ih =>
    intro d hlen hA
    unfold heapBuild
    obtain ⟨h1, h2⟩ := siftDown_spec key lt hlt hi first (i + 1) hi (i + 1) d (by omega)
      (le_refl _) hlen (fun k hk1 hk2 => hA k (by omega)) (fun p c hp1 hp2 _ _ => by omega)
    obtain ⟨h3, h4⟩ := ih (siftDown lt hi first hi (i + 1) d) (by rw [h1.len]; exact hlen)
      (fun k hk => h2 k (by omega))
    exact ⟨(h1.mono (by omega) (le_refl _)).trans h3, h4⟩

theorem heap_root_max (d : List α) (first hi : Nat) (h : ∀ k, HeapAt key d first hi k) :
    ∀ k, k < hi → keyAt key d (first + k) ≤ keyAt key d first := by
  intro k
  induction k using Nat.strong_induction_on with
  | _ k ih =>
    intro hk
    cases k with
    | zero => exact le_refl _
    | succ k =>
      have h1 := ih (k / 2) (by omega) (by omega)
      have h2 := h (k / 2) (k + 1) (by omega) hk
      omega

theorem heapPop_spec (hlt : ∀ x y, lt x y = decide (key x < key y))
    (first b : Nat) : ∀ (i : Nat) (d : List α), first + i ≤ b → b ≤ d.length →
    (∀ k, HeapAt key d first i k) → AdjSorted key d (first + i) b →
    (first + i < b → ∀ k, k < i → keyAt key d (first + k) ≤ keyAt key d (first + i)) →
    Shuf first b d (heapPop lt first i d) ∧ AdjSorted key (heapPop lt first i d) first b := by
  intro i
  induction i with
  | zero =>
    intro d _ _ _ hs _
    exact ⟨Shuf.refl _ _ _, hs⟩
  | succ i ih =>
    intro d hib hlen hheap hs hbound
    unfold heapPop
    have hmax := heap_root_max key d first (i + 1) hheap
    have hk : ∀ k, keyAt key (swapAt d first (first + i)) k =
        if k = first + i then keyAt key d first
        else if k = first then keyAt key d (first + i) else keyAt key d k :=
      fun k => keyAt_swapAt key d _ _ k (by omega) (by omega)
    have hsw := Shuf.swap first b d first (first + i) (le_refl _) (by omega) (by omega)
      (by omega) hlen
    obtain ⟨h1, h2⟩ := siftDown_spec key lt hlt i first 0 i 0 (swapAt d first (first + i))
      (by omega) (le_refl _) (by rw [swapAt_length]; omega)
      (by
        intro k _ hk2 c hc1 hc2
        rw [hk (first + c), hk (first + k)]
        have := hheap k c hc1 (by omega)
        split_ifs <;> omega)
      (fun p c _ hp _ _ => by omega)
    have hlen1 : (swapAt d first (first + i)).length = d.length := swapAt_length _ _ _
    obtain ⟨h3, h4⟩ := ih (siftDown lt i first i 0 (swapAt d first (first + i))) (by omega)
      (by rw [h1.len, hlen1]; exact hlen) (fun k => h2 k (Nat.zero_le _))
      (by
        intro k hk1 hk2
        rw [h1.keyAt_out key k (by omega), h1.keyAt_out key (k + 1) (by omega),
          hk k, hk (k + 1)]
        by_cases e : k = first + i
        · have h5 := hbound (by omega) 0 (by omega)
          have e2 : first + 0 = first := by omega
          rw [e2] at h5
          have e5 : keyAt key d (k + 1) = keyAt key d (first + (i + 1)) := by
            rw [show k + 1 = first + (i + 1) by omega]
          split_ifs <;> omega
        · have := hs k (by omega) hk2
          split_ifs <;> omega)
      (by
        intro _ k hk1
        rw [h1.keyAt_out key (first + i) (by omega), hk (first + i)]
        have e0 : first + 0 = first := by omega
        have hall := h1.keyAt_all key (by rw [hlen1]; omega)
          (fun v => v ≤ keyAt key d first)
          (by
            intro j hj1 hj2
            show keyAt key (swapAt d first (first + i)) j ≤ keyAt key d first
            rw [hk j]
            have h6 := hmax (j - first) (by omega)
            have e3 : first + (j - first) = j := by omega
            rw [e3] at h6
            have h7 := hmax i (by omega)
            split_ifs <;> omega)
          (first + k) (by omega) (by omega)
        simp only [e0] at hall
        split_ifs <;> omega)
    have h1' : Shuf first b (swapAt d first (first + i))
        (siftDown lt i first i 0 (swapAt d first (first + i))) := by
      have := h1
      simp only [Nat.add_zero] at this
      exact this.mono (le_refl _) (by omega)
    exact ⟨(hsw.trans h1').trans h3, h4⟩

theorem heapSort_spec (hlt : ∀ x y, lt x y = decide (key x < key y))
    (d : List α) (a b : Nat) (hab : a ≤ b) (hb : b ≤ d.length) :
    Shuf a b d (heapSort lt d a b) ∧ AdjSorted key (heapSort lt d a b) a b := by
  unfold heapSort
  dsimp only
  have e : a + (b - a) = b := by omega
  obtain ⟨h1, h2⟩ := heapBuild_spec key lt hlt (b - a) a ((b - a - 1) / 2) d (by omega)
    (fun k hk c hc1 hc2 => by omega)
  rw [e] at h1
  obtain ⟨h3, h4⟩ := heapPop_spec key lt hlt a b (b - a)
    (heapBuild lt (b - a) a ((b - a - 1) / 2) d) (by omega) (by rw [h1.len]; exact hb) h2
    (fun k hk1 hk2 => by omega) (fun h => by omega)
  exact ⟨h1.trans h3, h4⟩

theorem pow_bitsLenAux_le : ∀ (fuel n : Nat), 1 ≤ n → n ≤ fuel →
    2 ^ bitsLenAux fuel n ≤ 2 * n := by
  intro fuel
  induction fuel with
  | zero => intro n h1 h2; omega
  | succ fuel ih =>
    intro n h1 h2
    unfold bitsLenAux
    rw [if_neg (by omega)]
    by_cases h : n / 2 = 0
    · have : bitsLenAux fuel (n / 2) = 0 := by
        rw [h]
        cases fuel <;> simp [bitsLenAux]
      rw [this]
      omega
    · have := ih (n / 2) (by omega) (by omega)
      rw [Nat.pow_add]
      omega

theorem pow_bitsLen_le (n : Nat) (h : 1 ≤ n) : 2 ^ bitsLen n ≤ 2 * n :=
  pow_bitsLenAux_le n n h (le_refl _)

theorem breakLoop_shuf (a b length modulus idx : Nat) (hl : a + length = b) (h8 : 8 ≤ length)
    (hm : modulus ≤ 2 * length) (hm0 : 0 < modulus) (hidx : idx = a + length / 4 * 2 - 1) :
    ∀ (n i random : Nat) (d : List α), i + n ≤ 3 → b ≤ d.length →
      Shuf a b d (breakLoop a length modulus idx n i random d) := by
  intro n
  induction n with
  | zero => intro i random d _ _; exact Shuf.refl _ _ _
  | succ n ih =>
    intro i random d hin hb
    unfold breakLoop
    dsimp only
    have hand : Nat.land (xorshiftNext random) (modulus - 1) ≤ modulus - 1 := Nat.and_le_right
    have hsw := Shuf.swap a b d (idx + i)
      (a + if length ≤ Nat.land (xorshiftNext random) (modulus - 1) then
        Nat.land (xorshiftNext random) (modulus - 1) - length
        else Nat.land (xorshiftNext random) (modulus - 1))
      (by omega) (by omega) (by omega) (by split_ifs <;> omega) hb
    exact hsw.trans (ih (i + 1) _ _ (by omega) (by rw [swapAt_length]; exact hb))

theorem breakPatterns_shuf (d : List α) (a b : Nat) (hab : a ≤ b) (hb : b ≤ d.length) :
    Shuf a b d (breakPatterns d a b) := by
  unfold breakPatterns
  dsimp only
  split_ifs with h
  · exact breakLoop_shuf a b (b - a) (2 ^ bitsLen (b - a)) (a + (b - a) / 4 * 2 - 1)
      (by omega) h (pow_bitsLen_le _ (by omega)) (Nat.pos_pow_of_pos _ (by omega)) rfl
      3 0 (b - a) d (by omega) hb
  · exact Shuf.refl _ _ _

theorem reverseLoop_shuf (a b : Nat) : ∀ (fuel i j : Nat) (d : List α), a ≤ i → j < b →
    b ≤ d.length → Shuf a b d (reverseLoop fuel i j d) := by
  intro fuel
  induction fuel with
  | zero => intro i j d _ _ _; exact Shuf.refl _ _ _
  | succ fuel ih =>
    intro i j d hi hj hb
    unfold reverseLoop
    split_ifs with h
    · exact (Shuf.swap a b d i j hi (by omega) (by omega) hj hb).trans
        (ih (i + 1) (j - 1) _ (by omega) (by omega) (by rw [swapAt_length]; exact hb))
    · exact Shuf.refl _ _ _

theorem reverseRange_shuf (d : List α) (a b : Nat) (hab : a < b) (hb : b ≤ d.length) :
    Shuf a b d (reverseRange d a b) :=
  reverseLoop_shuf a b (b - a) a (b - 1) d (le_refl _) (by omega) hb

theorem order2_mem (d : List α) (a b s : Nat) :
    ((order2 lt d a b s).1 = a ∧ (order2 lt d a b s).2.1 = b) ∨
    ((order2 lt d a b s).1 = b ∧ (order2 lt d a b s).2.1 = a) := by
  unfold order2
  split_ifs
  · exact Or.inr ⟨rfl, rfl⟩
  · exact Or.inl ⟨rfl, rfl⟩

theorem median_mem (d : List α) (a b c s : Nat) :
    (median lt d a b c s).1 = a ∨ (median lt d a b c s).1 = b ∨ (median lt d a b c s).1 = c := by
  unfold median
  dsimp only
  rcases order2_mem lt d a b s with h1 | h1 <;>
    rcases order2_mem lt d (order2 lt d a b s).2.1 c (order2 lt d a b s).2.2 with h2 | h2 <;>
    rcases order2_mem lt d (order2 lt d a b s).1
      (order2 lt d (order2 lt d a b s).2.1 c (order2 lt d a b s).2.2).1
      (order2 lt d (order2 lt d a b s).2.1 c (order2 lt d a b s).2.2).2.2 with h3 | h3 <;>
    simp_all

theorem choosePivot_range (d : List α) (a b : Nat) (h8 : 8 ≤ b - a) :
    a ≤ (choosePivot lt d a b).1 ∧ (choosePivot lt d a b).1 < b := by
  have hfst : (choosePivot lt d a b).1 =
      (if 50 ≤ b - a then
        median lt d (medianAdjacent lt d (a + (b - a) / 4 * 1) 0).1
          (medianAdjacent lt d (a + (b - a) / 4 * 2)
            (medianAdjacent lt d (a + (b - a) / 4 * 1) 0).2).1
          (medianAdjacent lt d (a + (b - a) / 4 * 3)
            (medianAdjacent lt d (a + (b - a) / 4 * 2)
              (medianAdjacent lt d (a + (b - a) / 4 * 1) 0).2).2).1
          (medianAdjacent lt d (a + (b - a) / 4 * 3)
            (medianAdjacent lt d (a + (b - a) / 4 * 2)
              (medianAdjacent lt d (a + (b - a) / 4 * 1) 0).2).2).2
      else median lt d (a + (b - a) / 4 * 1) (a + (b - a) / 4 * 2) (a + (b - a) / 4 * 3) 0).1 := by
    unfold choosePivot
    dsimp only
    rw [if_pos h8]
    split_ifs <;> rfl
  rw [hfst]
  by_cases h50 : 50 ≤ b - a
  · rw [if_pos h50]
    have m1 := median_mem lt d (a + (b - a) / 4 * 1 - 1) (a + (b - a) / 4 * 1)
      (a + (b - a) / 4 * 1 + 1) 0
    have m2 := median_mem lt d (a + (b - a) / 4 * 2 - 1) (a + (b - a) / 4 * 2)
      (a + (b - a) / 4 * 2 + 1) (medianAdjacent lt d (a + (b - a) / 4 * 1) 0).2
    have m3 := median_mem lt d (a + (b - a) / 4 * 3 - 1) (a + (b - a) / 4 * 3)
      (a + (b - a) / 4 * 3 + 1)
      (medianAdjacent lt d (a + (b - a) / 4 * 2) (medianAdjacent lt d (a + (b - a) / 4 * 1) 0).2).2
    have m4 := median_mem lt d (medianAdjacent lt d (a + (b - a) / 4 * 1) 0).1
          (medianAdjacent lt d (a + (b - a) / 4 * 2)
            (medianAdjacent lt d (a + (b - a) / 4 * 1) 0).2).1
          (medianAdjacent lt d (a + (b - a) / 4 * 3)
            (medianAdjacent lt d (a + (b - a) / 4 * 2)
              (medianAdjacent lt d (a + (b - a) / 4 * 1) 0).2).2).1
          (medianAdjacent lt d (a + (b - a) / 4 * 3)
            (medianAdjacent lt d (a + (b - a) / 4 * 2)
              (medianAdjacent lt d (a + (b - a) / 4 * 1) 0).2).2).2
    simp only [medianAdjacent] at m1 m2 m3 m4 ⊢
    omega
  · rw [if_neg h50]
    have m := median_mem lt d (a + (b - a) / 4 * 1) (a + (b - a) / 4 * 2) (a + (b - a) / 4 * 3) 0
    omega

theorem scanSorted_spec (hlt : ∀ x y, lt x y = decide (key x < key y))
    (d : List α) (a b : Nat) (hb : b ≤ d.length) :
    ∀ (fuel i : Nat), a < i → i ≤ b → b ≤ i + fuel → AdjSorted key d a i →
      i ≤ scanSorted lt d b fuel i ∧ scanSorted lt d b fuel i ≤ b ∧
      AdjSorted key d a (scanSorted lt d b fuel i) ∧
      (scanSorted lt d b fuel i < b →
        keyAt key d (scanSorted lt d b fuel i) < keyAt key d (scanSorted lt d b fuel i - 1)) := by
  intro fuel
  induction fuel with
  | zero =>
    intro i hai hib hf hs
    unfold scanSorted
    exact ⟨le_refl _, hib, hs, fun h => by omega⟩
  | succ fuel ih =>
    intro i hai hib hf hs
    unfold scanSorted
    by_cases hlt_b : i < b
    · rw [lessAt_eq key lt hlt d i (i - 1) (by omega) (by omega)]
      by_cases hc : keyAt key d i < keyAt key d (i - 1)
      · have hcond : ¬ (decide (i < b) && !decide (keyAt key d i < keyAt key d (i - 1))) = true := by
          simp [hc]
        rw [if_neg hcond]
        exact ⟨le_refl _, hib, hs, fun _ => hc⟩
      · have hcond : (decide (i < b) && !decide (keyAt key d i < keyAt key d (i - 1))) = true := by
          simp [hc, hlt_b]
        rw [if_pos hcond]
        obtain ⟨h1, h2, h3, h4⟩ := ih (i + 1) (by omega) (by omega) (by omega)
          (by
            intro k hk1 hk2
            by_cases e : k + 1 = i
            · have e2 : i - 1 = k := by omega
              rw [e2] at hc
              rw [e]
              omega
            · exact hs k hk1 (by omega))
        exact ⟨by omega, h2, h3, h4⟩
    · have hcond : ¬ (decide (i < b) && !lessAt lt d i (i - 1)) = true := by
        simp [hlt_b]
      rw [if_neg hcond]
      exact ⟨le_refl _, hib, hs, fun h => absurd h hlt_b⟩

theorem shiftLeft_spec (hlt : ∀ x y, lt x y = decide (key x < key y))
    (a top : Nat) : ∀ (j : Nat) (d : List α), a ≤ j → j ≤ top →
    top < d.length → (0 < a → keyAt key d (a - 1) ≤ keyAt key d j) →
    (∀ k, a ≤ k → k + 1 ≤ top → k + 1 ≠ j → keyAt key d k ≤ keyAt key d (k + 1)) →
    (a < j → j < top → keyAt key d (j - 1) ≤ keyAt key d (j + 1)) →
    Shuf a (top + 1) d (shiftLeft lt j d) ∧ AdjSorted key (shiftLeft lt j d) a (top + 1) := by
  intro j
  induction j with
  | zero =>
    intro d _ _ _ _ h1 _
    refine ⟨Shuf.refl _ _ _, ?_⟩
    intro k hk1 hk2
    exact h1 k hk1 (by omega) (by omega)
  | succ j ih =>
    intro d haj hjt hlen hbnd h1 h2
    unfold shiftLeft
    rw [lessAt_eq key lt hlt d (j + 1) j (by omega) (by omega)]
    by_cases hc : keyAt key d (j + 1) < keyAt key d j
    · have hcond : ¬ (!decide (keyAt key d (j + 1) < keyAt key d j)) = true := by simp [hc]
      rw [if_neg hcond]
      have haj' : a ≤ j := by
        by_contra hcon
        have e : a = j + 1 := by omega
        have := hbnd (by omega)
        rw [e] at this
        simp only [Nat.add_sub_cancel] at this
        omega
      have hsw := Shuf.swap a (top + 1) d (j + 1) j (by omega) (by omega) (by omega) (by omega)
        (by omega)
      have hk : ∀ k, keyAt key (swapAt d (j + 1) j) k =
          if k = j then keyAt key d (j + 1) else if k = j + 1 then keyAt key d j
          else keyAt key d k :=
        fun k => keyAt_swapAt key d (j + 1) j k (by omega) (by omega)
      obtain ⟨hs, hsorted⟩ := ih (swapAt d (j + 1) j) haj' (by omega)
        (by rw [swapAt_length]; exact hlen)
        (by
          intro ha
          rw [hk (a - 1), hk j]
          have := hbnd ha
          split_ifs <;> omega)
        (by
          intro k hk1 hk2 hk3
          rw [hk k, hk (k + 1)]
          by_cases e2 : k = j + 1
          · subst e2
            have := h2 (by omega) (by omega)
            simp only [Nat.add_sub_cancel] at this
            split_ifs <;> omega
          · by_cases e1 : k = j
            · subst e1
              split_ifs <;> omega
            · have := h1 k hk1 hk2 (by omega)
              split_ifs <;> omega)
        (by
          intro hj1 hj2
          rw [hk (j - 1), hk (j + 1)]
          have := h1 (j - 1) (by omega) (by omega) (by omega)
          have e : j - 1 + 1 = j := by omega
          rw [e] at this
          split_ifs <;> omega)
      exact ⟨hsw.trans hs, hsorted⟩
    · have hcond : (!decide (keyAt key d (j + 1) < keyAt key d j)) = true := by simp [hc]
      rw [if_pos hcond]
      refine ⟨Shuf.refl _ _ _, ?_⟩
      intro k hk1 hk2
      by_cases e : k = j
      · subst e; omega
      · exact h1 k hk1 (by omega) (by omega)

theorem shiftRight_shuf (lo b : Nat) : ∀ (fuel j : Nat) (d : List α), lo < j → b ≤ d.length →
    Shuf lo b d (shiftRight lt b fuel j d) := by
  intro fuel
  induction fuel with
  | zero => intro j d _ _; exact Shuf.refl _ _ _
  | succ fuel ih =>
    intro j d hj hb
    unfold shiftRight
    split_ifs with h1 h2
    · exact Shuf.refl _ _ _
    · exact (Shuf.swap lo b d j (j - 1) (by omega) h1 (by omega) (by omega) hb).trans
        (ih (j + 1) _ (by omega) (by rw [swapAt_length]; exact hb))
    · exact Shuf.refl _ _ _

theorem partialLoop_spec (hlt : ∀ x y, lt x y = decide (key x < key y))
    (a b : Nat) : ∀ (steps i : Nat) (d : List α), a < i → i ≤ b →
    b ≤ d.length → Bounded key d a b → AdjSorted key d a i →
    Shuf a b d (partialLoop lt a b steps i d).1 ∧
      ((partialLoop lt a b steps i d).2 = true →
        AdjSorted key (partialLoop lt a b steps i d).1 a b) := by
  intro steps
  induction steps with
  | zero =>
    intro i d _ _ _ _ _
    unfold partialLoop
    exact ⟨Shuf.refl _ _ _, fun h => by simp at h⟩
  | succ steps ih =>
    intro i d hai hib hb hbnd hs
    obtain ⟨s1, s2, s3, s4⟩ := scanSorted_spec key lt hlt d a b hb (b - i) i hai hib (by omega) hs
    unfold partialLoop
    dsimp only
    generalize scanSorted lt d b (b - i) i = i' at s1 s2 s3 s4 ⊢
    by_cases e : i' = b
    · rw [if_pos e]
      subst e
      exact ⟨Shuf.refl _ _ _, fun _ => s3⟩
    · rw [if_neg e]
      by_cases h50 : b - a < 50
      · rw [if_pos h50]
        exact ⟨Shuf.refl _ _ _, fun h => by simp at h⟩
      · rw [if_neg h50]
        have hi'b : i' < b := by omega
        -- the exchange of the pair out of order
        have hsw := Shuf.swap a b d i' (i' - 1) (by omega) hi'b (by omega) (by omega) hb
        have hk : ∀ k, keyAt key (swapAt d i' (i' - 1)) k =
            if k = i' - 1 then keyAt key d i' else if k = i' then keyAt key d (i' - 1)
            else keyAt key d k :=
          fun k => keyAt_swapAt key d i' (i' - 1) k (by omega) (by omega)
        have hlen1 : (swapAt d i' (i' - 1)).length = d.length := swapAt_length _ _ _
        have hbnd1 := hbnd.shuf key hsw hb
        -- the smaller one to the left
        have hleft : Shuf a b (swapAt d i' (i' - 1))
              (if 2 ≤ i' - a then shiftLeft lt (i' - 1) (swapAt d i' (i' - 1))
                else swapAt d i' (i' - 1)) ∧
            AdjSorted key (if 2 ≤ i' - a then shiftLeft lt (i' - 1) (swapAt d i' (i' - 1))
                else swapAt d i' (i' - 1)) a i' := by
          by_cases h2 : 2 ≤ i' - a
          · rw [if_pos h2]
            obtain ⟨l1, l2⟩ := shiftLeft_spec key lt hlt a (i' - 1) (i' - 1)
              (swapAt d i' (i' - 1)) (by omega) (le_refl _) (by omega)
              (fun ha => hbnd1 ha (i' - 1) (by omega) (by omega))
              (by
                intro k hk1 hk2 hk3
                rw [hk k, hk (k + 1)]
                have := s3 k hk1 (by omega)
                split_ifs <;> omega)
              (fun _ h => absurd h (lt_irrefl _))
            have e1 : i' - 1 + 1 = i' := by omega
            rw [e1] at l1 l2
            exact ⟨l1.mono (le_refl _) (by omega), l2⟩
          · rw [if_neg h2]
            exact ⟨Shuf.refl _ _ _, fun k hk1 hk2 => by omega⟩
        obtain ⟨l1, l2⟩ := hleft
        generalize (if 2 ≤ i' - a then shiftLeft lt (i' - 1) (swapAt d i' (i' - 1))
                else swapAt d i' (i' - 1)) = d2 at l1 l2 ⊢
        have hlen2 : d2.length = d.length := l1.len.trans hlen1
        -- the greater one to the right
        have hright : Shuf i' b d2
              (if 2 ≤ b - i' then shiftRight lt b (b - (i' + 1)) (i' + 1) d2 else d2) := by
          split_ifs
          · exact shiftRight_shuf lt i' b _ _ d2 (by omega) (by omega)
          · exact Shuf.refl _ _ _
        generalize (if 2 ≤ b - i' then shiftRight lt b (b - (i' + 1)) (i' + 1) d2 else d2) = d3
          at hright ⊢
        have hall : Shuf a b d d3 := (hsw.trans l1).trans (hright.mono (by omega) (le_refl _))
        obtain ⟨r1, r2⟩ := ih i' d3 (by omega) (by omega) (by rw [hall.len]; exact hb)
          (hbnd.shuf key hall hb)
          (by
            intro k hk1 hk2
            rw [hright.keyAt_out key k (by omega), hright.keyAt_out key (k + 1) (by omega)]
            exact l2 k hk1 hk2)
        exact ⟨hall.trans r1, r2⟩

theorem partialInsertionSort_spec (hlt : ∀ x y, lt x y = decide (key x < key y))
    (d : List α) (a b : Nat) (hab : a < b) (hb : b ≤ d.length)
    (hbnd : Bounded key d a b) :
    Shuf a b d (partialInsertionSort lt d a b).1 ∧
      ((partialInsertionSort lt d a b).2 = true →
        AdjSorted key (partialInsertionSort lt d a b).1 a b) :=
  partialLoop_spec key lt hlt a b 5 (a + 1) d (by omega) (by omega) hb hbnd
    (fun k hk1 hk2 => by omega)

theorem scanUp_spec (p : Nat → Bool) (j : Nat) : ∀ (fuel i : Nat), i ≤ j + 1 → j + 1 ≤ i + fuel →
    i ≤ scanUp p j fuel i ∧ scanUp p j fuel i ≤ j + 1 ∧
    (∀ k, i ≤ k → k < scanUp p j fuel i → p k = true) ∧
    (scanUp p j fuel i ≤ j → p (scanUp p j fuel i) = false) := by
  intro fuel
  induction fuel with
  | zero =>
    intro i h1 h2
    unfold scanUp
    exact ⟨le_refl _, h1, fun k h3 h4 => by omega, fun h => by omega⟩
  | succ fuel ih =>
    intro i h1 h2
    unfold scanUp
    by_cases hc : i ≤ j ∧ p i = true
    · have hcond : (decide (i ≤ j) && p i) = true := by simp [hc.1, hc.2]
      rw [if_pos hcond]
      obtain ⟨r1, r2, r3, r4⟩ := ih (i + 1) (by omega) (by omega)
      refine ⟨by omega, r2, ?_, r4⟩
      intro k hk1 hk2
      by_cases e : k = i
      · subst e; exact hc.2
      · exact r3 k (by omega) hk2
    · have hcond : ¬ (decide (i ≤ j) && p i) = true := by
        simp only [Bool.and_eq_true, decide_eq_true_eq]
        exact hc
      rw [if_neg hcond]
      refine ⟨le_refl _, h1, fun k h3 h4 => by omega, ?_⟩
      intro h
      cases hp : p i with
      | false => rfl
      | true => exact absurd ⟨h, hp⟩ hc

theorem scanDown_spec (p : Nat → Bool) (i : Nat) (hi : 1 ≤ i) : ∀ (fuel j : Nat), i ≤ j + 1 →
    j + 1 ≤ i + fuel →
    scanDown p i fuel j ≤ j ∧ i ≤ scanDown p i fuel j + 1 ∧
    (∀ k, scanDown p i fuel j < k → k ≤ j → p k = true) ∧
    (i ≤ scanDown p i fuel j → p (scanDown p i fuel j) = false) := by
  intro fuel
  induction fuel with
  | zero =>
    intro j h1 h2
    unfold scanDown
    exact ⟨le_refl _, h1, fun k h3 h4 => by omega, fun h => by omega⟩
  | succ fuel ih =>
    intro j h1 h2
    unfold scanDown
    by_cases hc : i ≤ j ∧ p j = true
    · have hcond : (decide (i ≤ j) && p j) = true := by simp [hc.1, hc.2]
      rw [if_pos hcond]
      obtain ⟨r1, r2, r3, r4⟩ := ih (j - 1) (by omega) (by omega)
      refine ⟨by omega, r2, ?_, r4⟩
      intro k hk1 hk2
      by_cases e : k = j
      · subst e; exact hc.2
      · exact r3 k hk1 (by omega)
    · have hcond : ¬ (decide (i ≤ j) && p j) = true := by
        simp only [Bool.and_eq_true, decide_eq_true_eq]
        exact hc
      rw [if_neg hcond]
      refine ⟨le_refl _, h1, fun k h3 h4 => by omega, ?_⟩
      intro h
      cases hp : p j with
      | false => rfl
      | true => exact absurd ⟨h, hp⟩ hc

/-- The two scans of partition_func from `i` and `j`. -/
theorem scans_spec (hlt : ∀ x y, lt x y = decide (key x < key y))
    (d : List α) (a b i j f1 f2 : Nat) (P : Int) (hai : a < i) (hij : i ≤ j + 1)
    (hjb : j < b) (hb : b ≤ d.length) (hf1 : j + 1 ≤ i + f1)
    (hf2 : j + 1 ≤ scanUp (fun i => lessAt lt d i a) j f1 i + f2)
    (hP : keyAt key d a = P)
    (hL : ∀ k, a < k → k < i → keyAt key d k < P)
    (hR : ∀ k, j < k → k < b → P ≤ keyAt key d k) :
    ∃ i' j', scanUp (fun i => lessAt lt d i a) j f1 i = i' ∧
      scanDown (fun j => !lessAt lt d j a) i' f2 j = j' ∧
      i ≤ i' ∧ j' ≤ j ∧ i' ≤ j' + 1 ∧
      (∀ k, a < k → k < i' → keyAt key d k < P) ∧
      (∀ k, j' < k → k < b → P ≤ keyAt key d k) ∧
      (i' ≤ j' → i' < j' ∧ P ≤ keyAt key d i' ∧ keyAt key d j' < P) := by
  obtain ⟨u1, u2, u3, u4⟩ := scanUp_spec (fun i => lessAt lt d i a) j f1 i hij hf1
  generalize scanUp (fun i => lessAt lt d i a) j f1 i = i' at hf2 u1 u2 u3 u4 ⊢
  obtain ⟨v1, v2, v3, v4⟩ := scanDown_spec (fun j => !lessAt lt d j a) i' (by omega) f2 j u2 hf2
  generalize hj' : scanDown (fun j => !lessAt lt d j a) i' f2 j = j' at v1 v2 v3 v4
  have hless : ∀ k, k < b → lessAt lt d k a = decide (keyAt key d k < P) := by
    intro k hk
    rw [lessAt_eq key lt hlt d k a (by omega) (by omega), hP]
  refine ⟨i', j', rfl, hj', u1, v1, v2, ?_, ?_, ?_⟩
  · intro k hk1 hk2
    by_cases e : k < i
    · exact hL k hk1 e
    · have := u3 k (by omega) hk2
      simp only [hless k (by omega), decide_eq_true_eq] at this
      exact this
  · intro k hk1 hk2
    by_cases e : j < k
    · exact hR k e hk2
    · have := v3 k hk1 (by omega)
      simp only [hless k (by omega), Bool.not_eq_true', decide_eq_false_iff_not] at this
      omega
  · intro hle
    have h1 := u4 (by omega)
    have h2 := v4 hle
    simp only [hless i' (by omega), decide_eq_false_iff_not] at h1
    simp only [hless j' (by omega), Bool.not_eq_false', decide_eq_true_eq] at h2
    refine ⟨?_, by omega, h2⟩
    by_contra hcon
    have e : i' = j' := by omega
    subst e
    omega

theorem partitionLoop_spec (hlt : ∀ x y, lt x y = decide (key x < key y))
    (a b : Nat) (P : Int) : ∀ (fuel i j : Nat) (d : List α), a < i →
    i ≤ j + 1 → j < b → b ≤ d.length → j + 1 ≤ i + fuel → keyAt key d a = P →
    (∀ k, a < k → k < i → keyAt key d k < P) → (∀ k, j < k → k < b → P ≤ keyAt key d k) →
    Shuf (a + 1) b d (partitionLoop lt a fuel i j d).1 ∧
      a ≤ (partitionLoop lt a fuel i j d).2 ∧ (partitionLoop lt a fuel i j d).2 < b ∧
      (∀ k, a < k → k ≤ (partitionLoop lt a fuel i j d).2 →
        keyAt key (partitionLoop lt a fuel i j d).1 k < P) ∧
      (∀ k, (partitionLoop lt a fuel i j d).2 < k → k < b →
        P ≤ keyAt key (partitionLoop lt a fuel i j d).1 k) := by
  intro fuel
  induction fuel with
  | zero =>
    intro i j d hai hij hjb hb hf hP hL hR
    unfold partitionLoop
    exact ⟨Shuf.refl _ _ _, by omega, hjb, fun k h1 h2 => hL k h1 (by omega), hR⟩
  | succ fuel ih =>
    intro i j d hai hij hjb hb hf hP hL hR
    unfold partitionLoop
    dsimp only
    obtain ⟨i', j', e1, e2, s1, s2, s3, s4, s5, s6⟩ := scans_spec key lt hlt d a b i j
      (j + 1 - i) (j + 1 - scanUp (fun i => lessAt lt d i a) j (j + 1 - i) i) P hai hij hjb hb
      (by omega) (by omega) hP hL hR
    rw [e1] at e2 ⊢
    rw [e2]
    by_cases hc : j' < i'
    · rw [if_pos hc]
      exact ⟨Shuf.refl _ _ _, by omega, by omega, fun k h1 h2 => s4 k h1 (by omega), s5⟩
    · rw [if_neg hc]
      obtain ⟨t1, t2, t3⟩ := s6 (by omega)
      have hk : ∀ k, keyAt key (swapAt d i' j') k =
          if k = j' then keyAt key d i' else if k = i' then keyAt key d j' else keyAt key d k :=
        fun k => keyAt_swapAt key d i' j' k (by omega) (by omega)
      have hsw := Shuf.swap (a + 1) b d i' j' (by omega) (by omega) (by omega) (by omega) hb
      obtain ⟨r1, r2, r3, r4, r5⟩ := ih (i' + 1) (j' - 1) (swapAt d i' j') (by omega) (by omega)
        (by omega) (by rw [swapAt_length]; exact hb) (by omega)
        (by rw [hk a]; split_ifs <;> omega)
        (by
          intro k hk1 hk2
          rw [hk k]
          by_cases e : k = i'
          · split_ifs <;> omega
          · have := s4 k hk1 (by omega)
            split_ifs <;> omega)
        (by
          intro k hk1 hk2
          rw [hk k]
          by_cases e : k = j'
          · split_ifs <;> omega
          · have := s5 k (by omega) hk2
            split_ifs <;> omega)
      exact ⟨hsw.trans r1, r2, r3, r4, r5⟩

/-- The last exchange of partition_func puts the pivot between the two parts. -/
theorem partition_finish (d : List α) (a b j : Nat) (P : Int) (haj : a ≤ j) (hjb : j < b)
    (hb : b ≤ d.length) (hP : keyAt key d a = P)
    (hL : ∀ k, a < k → k ≤ j → keyAt key d k < P)
    (hR : ∀ k, j < k → k < b → P ≤ keyAt key d k) :
    Shuf a b d (swapAt d j a) ∧
      (∀ k, a ≤ k → k < j → keyAt key (swapAt d j a) k < keyAt key (swapAt d j a) j) ∧
      (∀ k, j < k → k < b → keyAt key (swapAt d j a) j ≤ keyAt key (swapAt d j a) k) := by
  have hk : ∀ k, keyAt key (swapAt d j a) k =
      if k = a then keyAt key d j else if k = j then keyAt key d a else keyAt key d k :=
    fun k => keyAt_swapAt key d j a k (by omega) (by omega)
  refine ⟨Shuf.swap a b d j a haj hjb (le_refl _) (by omega) hb, ?_, ?_⟩
  · intro k hk1 hk2
    rw [hk k, hk j]
    have h1 := hL j (by omega) (le_refl _)
    by_cases e : k = a
    · split_ifs <;> omega
    · have := hL k (by omega) (by omega)
      split_ifs <;> omega
  · intro k hk1 hk2
    rw [hk k, hk j]
    have := hR k hk1 hk2
    by_cases e : j = a
    · subst e
      split_ifs <;> omega
    · split_ifs <;> omega

theorem partition_spec (hlt : ∀ x y, lt x y = decide (key x < key y))
    (d : List α) (a b pivot : Nat) (hab : a < b) (hb : b ≤ d.length)
    (hp1 : a ≤ pivot) (hp2 : pivot < b) :
    Shuf a b d (partition lt d a b pivot).1 ∧
      a ≤ (partition lt d a b pivot).2.1 ∧ (partition lt d a b pivot).2.1 < b ∧
      (∀ k, a ≤ k → k < (partition lt d a b pivot).2.1 →
        keyAt key (partition lt d a b pivot).1 k <
          keyAt key (partition lt d a b pivot).1 (partition lt d a b pivot).2.1) ∧
      (∀ k, (partition lt d a b pivot).2.1 < k → k < b →
        keyAt key (partition lt d a b pivot).1 (partition lt d a b pivot).2.1 ≤
          keyAt key (partition lt d a b pivot).1 k) := by
  have hsw0 := Shuf.swap a b d a pivot (le_refl _) hab hp1 hp2 hb
  have hlen0 : (swapAt d a pivot).length = d.length := swapAt_length _ _ _
  unfold partition
  dsimp only
  generalize swapAt d a pivot = d0 at hsw0 hlen0 ⊢
  obtain ⟨i', j', e1, e2, s1, s2, s3, s4, s5, s6⟩ := scans_spec key lt hlt d0 a b (a + 1) (b - 1)
    (b - 1 + 1 - (a + 1))
    (b - 1 + 1 - scanUp (fun i => lessAt lt d0 i a) (b - 1) (b - 1 + 1 - (a + 1)) (a + 1))
    (keyAt key d0 a) (by omega) (by omega) (by omega) (by omega) (by omega) (by omega) rfl
    (fun k h1 h2 => by omega) (fun k h1 h2 => by omega)
  rw [e1] at e2 ⊢
  rw [e2]
  by_cases hc : j' < i'
  · rw [if_pos hc]
    dsimp only
    obtain ⟨f1, f2, f3⟩ := partition_finish key d0 a b j' (keyAt key d0 a) (by omega) (by omega)
      (by omega) rfl (fun k h1 h2 => s4 k h1 (by omega)) s5
    exact ⟨hsw0.trans f1, by omega, by omega, f2, f3⟩
  · rw [if_neg hc]
    dsimp only
    obtain ⟨t1, t2, t3⟩ := s6 (by omega)
    have hk : ∀ k, keyAt key (swapAt d0 i' j') k =
        if k = j' then keyAt key d0 i' else if k = i' then keyAt key d0 j'
        else keyAt key d0 k :=
      fun k => keyAt_swapAt key d0 i' j' k (by omega) (by omega)
    have hsw := Shuf.swap (a + 1) b d0 i' j' (by omega) (by omega) (by omega) (by omega)
      (by omega)
    obtain ⟨r1, r2, r3, r4, r5⟩ := partitionLoop_spec key lt hlt a b (keyAt key d0 a) (b - a)
      (i' + 1) (j' - 1) (swapAt d0 i' j') (by omega) (by omega) (by omega)
      (by rw [swapAt_length]; omega) (by omega)
      (by rw [hk a]; split_ifs <;> omega)
      (by
        intro k hk1 hk2
        rw [hk k]
        by_cases e : k = i'
        · split_ifs <;> omega
        · have := s4 k hk1 (by omega)
          split_ifs <;> omega)
      (by
        intro k hk1 hk2
        rw [hk k]
        by_cases e : k = j'
        · split_ifs <;> omega
        · have := s5 k (by omega) hk2
          split_ifs <;> omega)
    have hloop : Shuf (a + 1) b d0 (partitionLoop lt a (b - a) (i' + 1) (j' - 1)
        (swapAt d0 i' j')).1 := hsw.trans r1
    have hPa : keyAt key (partitionLoop lt a (b - a) (i' + 1) (j' - 1) (swapAt d0 i' j')).1 a =
        keyAt key d0 a := hloop.keyAt_out key a (by omega)
    generalize partitionLoop lt a (b - a) (i' + 1) (j' - 1) (swapAt d0 i' j') = r
      at r1 r2 r3 r4 r5 hloop hPa ⊢
    obtain ⟨f1, f2, f3⟩ := partition_finish key r.1 a b r.2 (keyAt key d0 a) r2 r3
      (by rw [hloop.len]; omega) hPa r4 r5
    exact ⟨(hsw0.trans (hloop.mono (by omega) (le_refl _))).trans f1, r2, r3, f2, f3⟩

/-- The two scans of partitionEqual_func from `i` and `j`. -/
theorem scansEqual_spec (hlt : ∀ x y, lt x y = decide (key x < key y))
    (d : List α) (a b i j f1 f2 : Nat) (P : Int) (hai : a < i)
    (hij : i ≤ j + 1) (hjb : j < b) (hb : b ≤ d.length) (hf1 : j + 1 ≤ i + f1)
    (hf2 : j + 1 ≤ scanUp (fun i => !lessAt lt d a i) j f1 i + f2)
    (hP : keyAt key d a = P)
    (hL : ∀ k, a < k → k < i → keyAt key d k ≤ P)
    (hR : ∀ k, j < k → k < b → P < keyAt key d k) :
    ∃ i' j', scanUp (fun i => !lessAt lt d a i) j f1 i = i' ∧
      scanDown (fun j => lessAt lt d a j) i' f2 j = j' ∧
      i ≤ i' ∧ j' ≤ j ∧ i' ≤ j' + 1 ∧
      (∀ k, a < k → k < i' → keyAt key d k ≤ P) ∧
      (∀ k, j' < k → k < b → P < keyAt key d k) ∧
      (i' ≤ j' → i' < j' ∧ P < keyAt key d i' ∧ keyAt key d j' ≤ P) := by
  obtain ⟨u1, u2, u3, u4⟩ := scanUp_spec (fun i => !lessAt lt d a i) j f1 i hij hf1
  generalize scanUp (fun i => !lessAt lt d a i) j f1 i = i' at hf2 u1 u2 u3 u4 ⊢
  obtain ⟨v1, v2, v3, v4⟩ := scanDown_spec (fun j => lessAt lt d a j) i' (by omega) f2 j u2 hf2
  generalize hj' : scanDown (fun j => lessAt lt d a j) i' f2 j = j' at v1 v2 v3 v4
  have hless : ∀ k, k < b → lessAt lt d a k = decide (P < keyAt key d k) := by
    intro k hk
    rw [lessAt_eq key lt hlt d a k (by omega) (by omega), hP]
  refine ⟨i', j', rfl, hj', u1, v1, v2, ?_, ?_, ?_⟩
  · intro k hk1 hk2
    by_cases e : k < i
    · exact hL k hk1 e
    · have := u3 k (by omega) hk2
      simp only [hless k (by omega), Bool.not_eq_true', decide_eq_false_iff_not] at this
      omega
  · intro k hk1 hk2
    by_cases e : j < k
    · exact hR k e hk2
    · have := v3 k hk1 (by omega)
      simp only [hless k (by omega), decide_eq_true_eq] at this
      exact this
  · intro hle
    have h1 := u4 (by omega)
    have h2 := v4 hle
    simp only [hless i' (by omega), Bool.not_eq_false', decide_eq_true_eq] at h1
    simp only [hless j' (by omega), decide_eq_false_iff_not] at h2
    refine ⟨?_, h1, by omega⟩
    by_contra hcon
    have e : i' = j' := by omega
    subst e
    omega

theorem partitionEqualLoop_spec (hlt : ∀ x y, lt x y = decide (key x < key y))
    (a b : Nat) (P : Int) : ∀ (fuel i j : Nat) (d : List α),
    a < i → i ≤ j + 1 → j < b → b ≤ d.length → j + 1 ≤ i + fuel → keyAt key d a = P →
    (∀ k, a < k → k < i → keyAt key d k ≤ P) → (∀ k, j < k → k < b → P < keyAt key d k) →
    Shuf (a + 1) b d (partitionEqualLoop lt a fuel i j d).1 ∧
      a < (partitionEqualLoop lt a fuel i j d).2 ∧ (partitionEqualLoop lt a fuel i j d).2 ≤ b ∧
      (∀ k, a < k → k < (partitionEqualLoop lt a fuel i j d).2 →
        keyAt key (partitionEqualLoop lt a fuel i j d).1 k ≤ P) ∧
      (∀ k, (partitionEqualLoop lt a fuel i j d).2 ≤ k → k < b →
        P < keyAt key (partitionEqualLoop lt a fuel i j d).1 k) := by
  intro fuel
  induction fuel with
  | zero =>
    intro i j d hai hij hjb hb hf hP hL hR
    unfold partitionEqualLoop
    exact ⟨Shuf.refl _ _ _, hai, by omega, hL, fun k h1 h2 => hR k (by omega) h2⟩
  | succ fuel ih =>
    intro i j d hai hij hjb hb hf hP hL hR
    unfold partitionEqualLoop
    dsimp only
    obtain ⟨i', j', e1, e2, s1, s2, s3, s4, s5, s6⟩ := scansEqual_spec key lt hlt d a b i j
      (j + 1 - i) (j + 1 - scanUp (fun i => !lessAt lt d a i) j (j + 1 - i) i) P hai hij hjb hb
      (by omega) (by omega) hP hL hR
    rw [e1] at e2 ⊢
    rw [e2]
    by_cases hc : j' < i'
    · rw [if_pos hc]
      exact ⟨Shuf.refl _ _ _, by omega, by omega, s4, fun k h1 h2 => s5 k (by omega) h2⟩
    · rw [if_neg hc]
      obtain ⟨t1, t2, t3⟩ := s6 (by omega)
      have hk : ∀ k, keyAt key (swapAt d i' j') k =
          if k = j' then keyAt key d i' else if k = i' then keyAt key d j' else keyAt key d k :=
        fun k => keyAt_swapAt key d i' j' k (by omega) (by omega)
      have hsw := Shuf.swap (a + 1) b d i' j' (by omega) (by omega) (by omega) (by omega) hb
      obtain ⟨r1, r2, r3, r4, r5⟩ := ih (i' + 1) (j' - 1) (swapAt d i' j') (by omega) (by omega)
        (by omega) (by rw [swapAt_length]; exact hb) (by omega)
        (by rw [hk a]; split_ifs <;> omega)
        (by
          intro k hk1 hk2
          rw [hk k]
          by_cases e : k = i'
          · split_ifs <;> omega
          · have := s4 k hk1 (by omega)
            split_ifs <;> omega)
        (by
          intro k hk1 hk2
          rw [hk k]
          by_cases e : k = j'
          · split_ifs <;> omega
          · have := s5 k (by omega) hk2
            split_ifs <;> omega)
      exact ⟨hsw.trans r1, r2, r3, r4, r5⟩

theorem partitionEqual_spec (hlt : ∀ x y, lt x y = decide (key x < key y))
    (d : List α) (a b pivot : Nat) (hab : a < b) (hb : b ≤ d.length)
    (hp1 : a ≤ pivot) (hp2 : pivot < b) :
    Shuf a b d (partitionEqual lt d a b pivot).1 ∧
      a < (partitionEqual lt d a b pivot).2 ∧ (partitionEqual lt d a b pivot).2 ≤ b ∧
      (∀ k, a ≤ k → k < (partitionEqual lt d a b pivot).2 →
        keyAt key (partitionEqual lt d a b pivot).1 k ≤ keyAt key d pivot) ∧
      (∀ k, (partitionEqual lt d a b pivot).2 ≤ k → k < b →
        keyAt key d pivot < keyAt key (partitionEqual lt d a b pivot).1 k) := by
  have hsw0 := Shuf.swap a b d a pivot (le_refl _) hab hp1 hp2 hb
  have hP0 : keyAt key (swapAt d a pivot) a = keyAt key d pivot := by
    rw [keyAt_swapAt key d a pivot a (by omega) (by omega)]
    by_cases e : a = pivot
    · subst e; simp
    · simp [e]
  unfold partitionEqual
  dsimp only
  generalize swapAt d a pivot = d0 at hsw0 hP0 ⊢
  obtain ⟨r1, r2, r3, r4, r5⟩ := partitionEqualLoop_spec key lt hlt a b (keyAt key d pivot)
    (b - a) (a + 1) (b - 1) d0 (by omega) (by omega) (by omega) (by rw [hsw0.len]; exact hb)
    (by omega) hP0 (fun k h1 h2 => by omega) (fun k h1 h2 => by omega)
  refine ⟨hsw0.trans (r1.mono (by omega) (le_refl _)), r2, r3, ?_, r5⟩
  intro k hk1 hk2
  by_cases e : k = a
  · subst e
    rw [r1.keyAt_out key k (by omega), hP0]
  · exact r4 k (by omega) hk2

/-- Two sorted parts around a pivot that separates them make a sorted range. -/
theorem AdjSorted.join (d : List α) (a mid b : Nat) (hL : AdjSorted key d a mid)
    (hR : AdjSorted key d (mid + 1) b)
    (hlow : ∀ k, a ≤ k → k < mid → keyAt key d k < keyAt key d mid)
    (hhigh : ∀ k, mid < k → k < b → keyAt key d mid ≤ keyAt key d k) :
    AdjSorted key d a b := by
  intro k hk1 hk2
  by_cases e1 : k + 1 < mid
  · exact hL k hk1 e1
  · by_cases e2 : k + 1 = mid
    · have := hlow k hk1 (by omega)
      rw [e2]
      omega
    · by_cases e3 : k = mid
      · subst e3
        exact hhigh (k + 1) (by omega) hk2
      · exact hR k (by omega) hk2

theorem pdqsort_spec (hlt : ∀ x y, lt x y = decide (key x < key y))
    : ∀ (fuel : Nat) (d : List α) (a b limit : Nat) (wb wp : Bool),
    a ≤ b → b ≤ d.length → b - a < fuel → Bounded key d a b →
    ∃ d', pdqsort lt fuel d a b limit wb wp = some d' ∧ Shuf a b d d' ∧ AdjSorted key d' a b := by
  intro fuel
  induction fuel with
  | zero => intro d a b limit wb wp _ _ hf _; omega
  | succ fuel ih =>
    intro d a b limit wb wp hab hb hf hbnd
    rw [pdqsort]
    dsimp only
    by_cases h12 : b - a ≤ 12
    · rw [if_pos h12]
      obtain ⟨h1, h2⟩ := insertionSort_spec key lt hlt d a b hb
      exact ⟨_, rfl, h1, h2⟩
    rw [if_neg h12]
    by_cases hl : limit = 0
    · rw [if_pos hl]
      obtain ⟨h1, h2⟩ := heapSort_spec key lt hlt d a b hab hb
      exact ⟨_, rfl, h1, h2⟩
    rw [if_neg hl]
    -- breakPatterns
    have hd1 : Shuf a b d (if (!wb) = true then breakPatterns d a b else d) := by
      split_ifs
      · exact breakPatterns_shuf d a b hab hb
      · exact Shuf.refl _ _ _
    generalize (if (!wb) = true then breakPatterns d a b else d) = d1 at hd1 ⊢
    generalize (if (!wb) = true then limit - 1 else limit) = limit1
    have hb1 : b ≤ d1.length := by rw [hd1.len]; exact hb
    -- choosePivot
    have hch := choosePivot_range lt d1 a b (by omega)
    generalize choosePivot lt d1 a b = chosen at hch ⊢
    have hd2 : Shuf a b d1
        (if chosen.2 = SortedHint.decreasingHint then reverseRange d1 a b else d1) := by
      split_ifs
      · exact reverseRange_shuf d1 a b (by omega) hb1
      · exact Shuf.refl _ _ _
    generalize (if chosen.2 = SortedHint.decreasingHint then reverseRange d1 a b else d1) = d2
      at hd2 ⊢
    have hb2 : b ≤ d2.length := by rw [hd2.len]; exact hb1
    have hpiv : a ≤ (if chosen.2 = SortedHint.decreasingHint then b - 1 - (chosen.1 - a)
        else chosen.1) ∧
        (if chosen.2 = SortedHint.decreasingHint then b - 1 - (chosen.1 - a) else chosen.1) < b := by
      split_ifs <;> omega
    generalize (if chosen.2 = SortedHint.decreasingHint then b - 1 - (chosen.1 - a)
        else chosen.1) = pivot at hpiv ⊢
    generalize (if chosen.2 = SortedHint.decreasingHint then SortedHint.increasingHint
        else chosen.2) = hint
    have hbnd2 : Bounded key d2 a b := hbnd.shuf key (hd1.trans hd2) hb
    -- partialInsertionSort
    have htried : Shuf a b d2
          (if (wb && wp && decide (hint = SortedHint.increasingHint)) = true then
            partialInsertionSort lt d2 a b else (d2, false)).1 ∧
        ((if (wb && wp && decide (hint = SortedHint.increasingHint)) = true then
            partialInsertionSort lt d2 a b else (d2, false)).2 = true →
          AdjSorted key (if (wb && wp && decide (hint = SortedHint.increasingHint)) = true then
            partialInsertionSort lt d2 a b else (d2, false)).1 a b) := by
      split_ifs
      · exact partialInsertionSort_spec key lt hlt d2 a b (by omega) hb2 hbnd2
      · exact ⟨Shuf.refl _ _ _, fun h => by simp at h⟩
    generalize (if (wb && wp && decide (hint = SortedHint.increasingHint)) = true then
            partialInsertionSort lt d2 a b else (d2, false)) = tried at htried ⊢
    obtain ⟨ht1, ht2⟩ := htried
    have hall3 : Shuf a b d tried.1 := (hd1.trans hd2).trans ht1
    have hb3 : b ≤ tried.1.length := by rw [hall3.len]; exact hb
    have hbnd3 : Bounded key tried.1 a b := hbnd.shuf key hall3 hb
    by_cases hdone : tried.2 = true
    · rw [if_pos hdone]
      exact ⟨_, rfl, hall3, ht2 hdone⟩
    rw [if_neg hdone]
    by_cases heq : (decide (0 < a) && !lessAt lt tried.1 (a - 1) pivot) = true
    · -- partitionEqual
      rw [if_pos heq]
      simp only [Bool.and_eq_true, decide_eq_true_eq, Bool.not_eq_true'] at heq
      obtain ⟨ha0, hnl⟩ := heq
      rw [lessAt_eq key lt hlt tried.1 (a - 1) pivot (by omega) (by omega)] at hnl
      simp only [decide_eq_false_iff_not] at hnl
      have hge : ∀ k, a ≤ k → k < b → keyAt key tried.1 pivot ≤ keyAt key tried.1 k := by
        intro k hk1 hk2
        have := hbnd3 ha0 k hk1 hk2
        omega
      obtain ⟨p1, p2, p3, p4, p5⟩ := partitionEqual_spec key lt hlt tried.1 a b pivot (by omega)
        hb3 hpiv.1 hpiv.2
      have p6 := p1.keyAt_all key hb3 (fun v => keyAt key tried.1 pivot ≤ v) hge
      generalize partitionEqual lt tried.1 a b pivot = r at p1 p2 p3 p4 p5 p6 ⊢
      have hbr : b ≤ r.1.length := by rw [p1.len]; exact hb3
      obtain ⟨d', e', s1, s2⟩ := ih r.1 r.2 b limit1 wb wp p3 hbr (by omega)
        (by
          intro _ k hk1 hk2
          have h1 := p4 (r.2 - 1) (by omega) (by omega)
          have h2 := p5 k hk1 hk2
          omega)
      refine ⟨d', e', hall3.trans (p1.trans (s1.mono (by omega) (le_refl _))), ?_⟩
      intro k hk1 hk2
      by_cases c1 : r.2 ≤ k
      · exact s2 k c1 hk2
      · have h1 := p4 k hk1 (by omega)
        have h2 := p6 k hk1 (by omega)
        rw [s1.keyAt_out key k (by omega)]
        by_cases c2 : k + 1 < r.2
        · have h3 := p4 (k + 1) (by omega) c2
          have h4 := p6 (k + 1) (by omega) (by omega)
          rw [s1.keyAt_out key (k + 1) (by omega)]
          omega
        · have h3 := s1.keyAt_all key hbr (fun v => keyAt key tried.1 pivot < v) p5 (k + 1)
            (by omega) hk2
          simp only at h3
          omega
    · -- partition
      rw [if_neg heq]
      obtain ⟨p1, p2, p3, p4, p5⟩ := partition_spec key lt hlt tried.1 a b pivot (by omega)
        hb3 hpiv.1 hpiv.2
      generalize partition lt tried.1 a b pivot = r at p1 p2 p3 p4 p5 ⊢
      have hbr : b ≤ r.1.length := by rw [p1.len]; exact hb3
      have hbndr : Bounded key r.1 a b := hbnd3.shuf key p1 hb3
      have hallr : Shuf a b d r.1 := hall3.trans p1
      by_cases hlr : r.2.1 - a < b - r.2.1
      · rw [if_pos hlr]
        -- the left part, then the right part
        obtain ⟨dL, eL, l1, l2⟩ := ih r.1 a r.2.1 limit1 true true p2 (by omega) (by omega)
          (fun ha k hk1 hk2 => hbndr ha k hk1 (by omega))
        rw [eL]
        dsimp only
        have hbL : b ≤ dL.length := by rw [l1.len]; exact hbr
        have hmidL : keyAt key dL r.2.1 = keyAt key r.1 r.2.1 := l1.keyAt_out key _ (by omega)
        have hhighL : ∀ k, r.2.1 < k → k < b → keyAt key r.1 r.2.1 ≤ keyAt key dL k := by
          intro k hk1 hk2
          rw [l1.keyAt_out key k (by omega)]
          exact p5 k hk1 hk2
        obtain ⟨dR, eR, r1, r2⟩ := ih dL (r.2.1 + 1) b limit1
          (decide ((b - a) / 8 ≤ r.2.1 - a)) r.2.2 (by omega) hbL (by omega)
          (by
            intro _ k hk1 hk2
            have := hhighL k (by omega) hk2
            simp only [Nat.add_sub_cancel]
            omega)
        refine ⟨dR, eR, hallr.trans ((l1.mono (le_refl _) (by omega)).trans
          (r1.mono (by omega) (le_refl _))), ?_⟩
        have hmidR : keyAt key dR r.2.1 = keyAt key r.1 r.2.1 := by
          rw [r1.keyAt_out key _ (by omega)]; exact hmidL
        apply AdjSorted.join key dR a r.2.1 b
        · intro k hk1 hk2
          rw [r1.keyAt_out key k (by omega), r1.keyAt_out key (k + 1) (by omega)]
          exact l2 k hk1 hk2
        · exact r2
        · intro k hk1 hk2
          rw [hmidR, r1.keyAt_out key k (by omega)]
          exact l1.keyAt_all key (by omega) (fun v => v < keyAt key r.1 r.2.1) p4 k hk1 hk2
        · intro k hk1 hk2
          rw [hmidR]
          exact r1.keyAt_all key hbL (fun v => keyAt key r.1 r.2.1 ≤ v)
            (fun k h1 h2 => hhighL k (by omega) h2) k (by omega) hk2
      · rw [if_neg hlr]
        -- the right part, then the left part
        obtain ⟨dR, eR, r1, r2⟩ := ih r.1 (r.2.1 + 1) b limit1 true true (by omega) hbr
          (by omega)
          (by
            intro _ k hk1 hk2
            have := p5 k (by omega) hk2
            simp only [Nat.add_sub_cancel]
            omega)
        rw [eR]
        dsimp only
        have hbR : b ≤ dR.length := by rw [r1.len]; exact hbr
        have hmidR : keyAt key dR r.2.1 = keyAt key r.1 r.2.1 := r1.keyAt_out key _ (by omega)
        have hlowR : ∀ k, a ≤ k → k < r.2.1 → keyAt key dR k < keyAt key r.1 r.2.1 := by
          intro k hk1 hk2
          rw [r1.keyAt_out key k (by omega)]
          exact p4 k hk1 hk2
        obtain ⟨dL, eL, l1, l2⟩ := ih dR a r.2.1 limit1
          (decide ((b - a) / 8 ≤ b - r.2.1)) r.2.2 p2 (by omega) (by omega)
          (by
            intro ha k hk1 hk2
            rw [r1.keyAt_out key k (by omega), r1.keyAt_out key (a - 1) (by omega)]
            exact hbndr ha k hk1 (by omega))
        refine ⟨dL, eL, hallr.trans ((r1.mono (by omega) (le_refl _)).trans
          (l1.mono (le_refl _) (by omega))), ?_⟩
        have hmidL : keyAt key dL r.2.1 = keyAt key r.1 r.2.1 := by
          rw [l1.keyAt_out key _ (by omega)]; exact hmidR
        apply AdjSorted.join key dL a r.2.1 b
        · exact l2
        · intro k hk1 hk2
          rw [l1.keyAt_out key k (by omega), l1.keyAt_out key (k + 1) (by omega)]
          exact r2 k hk1 hk2
        · intro k hk1 hk2
          rw [hmidL]
          exact l1.keyAt_all key (by omega) (fun v => v < keyAt key r.1 r.2.1) hlowR k hk1 hk2
        · intro k hk1 hk2
          rw [hmidL, l1.keyAt_out key k (by omega)]
          exact r1.keyAt_all key hbr (fun v => keyAt key r.1 r.2.1 ≤ v)
            (fun k h1 h2 => p5 k (by omega) h2) k (by omega) hk2

theorem sorted_of_adjSorted : ∀ (d : List α), AdjSorted key d 0 d.length →
    d.Sorted (fun x y => key x ≤ key y) := by
  intro d
  induction d with
  | nil => intro _; exact List.sorted_nil
  | cons x d ih =>
    intro h
    have htail : AdjSorted key d 0 d.length := by
      intro k _ hk2
      have := h (k + 1) (by omega) (by simp only [List.length_cons]; omega)
      simpa [keyAt] using this
    have hs := ih htail
    refine List.sorted_cons.mpr ⟨?_, hs⟩
    intro y hy
    cases d with
    | nil => simp at hy
    | cons z d =>
      have hxz : key x ≤ key z := by
        have := h 0 (le_refl _) (by simp only [List.length_cons]; omega)
        simpa [keyAt] using this
      rcases List.mem_cons.mp hy with e | hmem
      · subst e; exact hxz
      · have := (List.sorted_cons.mp hs).1 y hmem
        exact le_trans hxz this

/-- The function sort.Slice returns, and its result is a rearrangement of the data in
which the keys do not decrease, for a comparison that is `<` on the keys. -/
theorem sortSlice_spec (hlt : ∀ x y, lt x y = decide (key x < key y))
    (d : List α) :
    ∃ d', sortSlice lt d = some d' ∧ d'.Perm d ∧ d'.Sorted (fun x y => key x ≤ key y) := by
  obtain ⟨d', e, h1, h2⟩ := pdqsort_spec key lt hlt (d.length + 1) d 0 d.length
    (bitsLen d.length) true true (Nat.zero_le _) (le_refl _) (by omega)
    (fun h => absurd h (lt_irrefl _))
  refine ⟨d', e, h1.perm, ?_⟩
  apply sorted_of_adjSorted
  rw [h1.len]
  exact h2

theorem swapAt_cons_succ (x : α) (d : List α) (i j : Nat) :
    swapAt (x :: d) (i + 1) (j + 1) = x :: swapAt d i j := by
  unfold swapAt
  simp only [List.getElem?_cons_succ]
  cases d[i]? with
  | none => rfl
  | some u =>
    cases d[j]? with
    | none => rfl
    | some v => simp

theorem swapAt_adjacent_filter (p : α → Bool) : ∀ (d : List α) (j : Nat) (x y : α),
    d[j + 1]? = some x → d[j]? = some y → (p x = false ∨ p y = false) →
    (swapAt d (j + 1) j).filter p = d.filter p := by
  intro d
  induction d with
  | nil => intro j x y h; simp at h
  | cons z d ih =>
    intro j x y hx hy hp
    cases j with
    | zero =>
      cases d with
      | nil => simp at hx
      | cons w d =>
        simp only [List.getElem?_cons_succ, List.getElem?_cons_zero, Option.some.injEq,
          zero_add] at hx hy
        subst hx hy
        have : swapAt (z :: w :: d) 1 0 = w :: z :: d := by
          simp [swapAt]
        rw [this]
        rcases hp with h | h
        · simp [List.filter_cons, h]
        · simp [List.filter_cons, h]
    | succ j =>
      simp only [List.getElem?_cons_succ] at hx hy
      rw [swapAt_cons_succ, List.filter_cons, List.filter_cons, ih j x y hx hy hp]

theorem lessAt_true (hlt : ∀ x y, lt x y = decide (key x < key y))
    (d : List α) (i j : Nat) (h : lessAt lt d i j = true) :
    ∃ x y, d[i]? = some x ∧ d[j]? = some y ∧ key x < key y := by
  unfold lessAt at h
  cases hx : d[i]? with
  | none => simp [hx] at h
  | some x =>
    cases hy : d[j]? with
    | none => simp [hx, hy] at h
    | some y =>
      simp only [hx, hy, hlt, decide_eq_true_eq] at h
      exact ⟨x, y, rfl, rfl, h⟩

theorem insertInner_filter (hlt : ∀ x y, lt x y = decide (key x < key y))
    (p : α → Bool) (hp : ∀ x y, p x = true → p y = true → key x = key y)
    (a : Nat) : ∀ (j : Nat) (d : List α), (insertInner lt a j d).filter p = d.filter p := by
  intro j
  induction j with
  | zero => intro d; rfl
  | succ j ih =>
    intro d
    unfold insertInner
    split_ifs with hc
    · simp only [Bool.and_eq_true, decide_eq_true_eq] at hc
      obtain ⟨x, y, hx, hy, hxy⟩ := lessAt_true key lt hlt d (j + 1) j hc.2
      rw [ih, swapAt_adjacent_filter p d j x y hx hy]
      cases h1 : p x with
      | false => exact Or.inl rfl
      | true =>
        cases h2 : p y with
        | false => exact Or.inr rfl
        | true => have := hp x y h1 h2; omega
    · rfl

theorem insertOuter_filter (hlt : ∀ x y, lt x y = decide (key x < key y))
    (p : α → Bool) (hp : ∀ x y, p x = true → p y = true → key x = key y)
    (a b : Nat) : ∀ (n i : Nat) (d : List α), (insertOuter lt a b n i d).filter p = d.filter p := by
  intro n
  induction n with
  | zero => intro i d; rfl
  | succ n ih =>
    intro i d
    unfold insertOuter
    split_ifs
    · rw [ih, insertInner_filter key lt hlt p hp]
    · rfl

/-- Up to 12 elements sort.Slice is the insertion sort, which keeps the order of the
elements of equal key. -/
theorem sortSlice_small (hlt : ∀ x y, lt x y = decide (key x < key y))
    (d : List α) (h : d.length ≤ 12) :
    sortSlice lt d = some (insertionSort lt d 0 d.length) ∧
    ∀ p : α → Bool, (∀ x y, p x = true → p y = true → key x = key y) →
      (insertionSort lt d 0 d.length).filter p = d.filter p := by
  constructor
  · unfold sortSlice
    rw [pdqsort]
    dsimp only
    rw [if_pos (by omega)]
  · intro p hp
    exact insertOuter_filter key lt hlt p hp _ _ _ _ _

theorem sessionLess_eq (s t : Session) : sessionLess s t = decide (rankKey s < rankKey t) := by
  unfold sessionLess Time.After rankKey
  by_cases h : t.LastActive.unixNano < s.LastActive.unixNano
  · simp [h]
  · simp [h]

theorem rankSessions_spec (sessions : List Session) :
    ∃ ranked, rankSessions sessions = some ranked ∧ ranked.Perm sessions ∧ Descending ranked := by
  obtain ⟨r, e, h1, h2⟩ := sortSlice_spec rankKey sessionLess sessionLess_eq sessions
  refine ⟨r, e, h1, ?_⟩
  unfold Descending
  refine List.Pairwise.imp ?_ h2
  intro s t h
  unfold rankKey at h
  omega

theorem descending_unique (l₁ l₂ : List Session) (hp : l₁.Perm l₂)
    (hnd : (l₁.map (fun s => s.LastActive.unixNano)).Nodup)
    (h1 : Descending l₁) (h2 : Descending l₂) : l₁ = l₂ := by
  have strict : ∀ l : List Session, (l.map (fun s => s.LastActive.unixNano)).Nodup →
      Descending l → l.Sorted (fun s t => t.LastActive.unixNano < s.LastActive.unixNano) := by
    intro l hn hd
    have hn' : l.Pairwise (fun s t => s.LastActive.unixNano ≠ t.LastActive.unixNano) := by
      unfold List.Nodup at hn
      rw [List.pairwise_map] at hn
      exact hn
    refine List.Pairwise.imp ?_ (List.Pairwise.and hd hn')
    intro s t h
    omega
  have hnd2 : (l₂.map (fun s => s.LastActive.unixNano)).Nodup :=
    (List.Perm.nodup_iff (hp.map _)).mp hnd
  haveI : IsAntisymm Session (fun s t => t.LastActive.unixNano < s.LastActive.unixNano) :=
    ⟨fun s t h1 h2 => by omega⟩
  exact List.eq_of_perm_of_sorted hp (strict l₁ hnd h1) (strict l₂ hnd2 h2)

/-- C6: the ranking step returns a permutation of the discovered sessions in which
LastActive does not increase from front to back; when the LastActive instants are
pairwise distinct every discovery order of the same sessions is ranked the same. -/
theorem rankSessions_descending_permutation (sessions : List Session) :
    ∃ ranked, rankSessions sessions = some ranked ∧ ranked.Perm sessions ∧
      ranked.Sorted (fun s t => t.LastActive.unixNano ≤ s.LastActive.unixNano) ∧
      ((sessions.map (fun s => s.LastActive.unixNano)).Nodup →
        ranked.Sorted (fun s t => s.LastActive.After t.LastActive = true) ∧
        ∀ other, other.Perm sessions → rankSessions other = some ranked) := by
  obtain ⟨r, e, h1, h2⟩ := rankSessions_spec sessions
  refine ⟨r, e, h1, h2, ?_⟩
  intro hnd
  have hndr : (r.map (fun s => s.LastActive.unixNano)).Nodup :=
    (List.Perm.nodup_iff (h1.map _)).mpr hnd
  constructor
  · have hn' : r.Pairwise (fun s t => s.LastActive.unixNano ≠ t.LastActive.unixNano) := by
      unfold List.Nodup at hndr
      rw [List.pairwise_map] at hndr
      exact hndr
    refine List.Pairwise.imp ?_ (List.Pairwise.and h2 hn')
    intro s t h
    unfold Time.After
    simp only [decide_eq_true_eq]
    omega
  · intro other hperm
    obtain ⟨r', e', h1', h2'⟩ := rankSessions_spec other
    rw [e']
    congr 1
    have hp : r'.Perm r := (h1'.trans hperm).trans h1.symm
    have hndr' : (r'.map (fun s => s.LastActive.unixNano)).Nodup :=
      (List.Perm.nodup_iff (hp.map _)).mpr hndr
    exact descending_unique r' r hp hndr' h2' h2

theorem rankSessions_descending_permutation_witness :
    (threeSessions.map (fun s => s.LastActive.unixNano)).Nodup ∧
    rankSessions threeSessions = some
      [newSession (lit "proj") (lit "a.jsonl") [] ⟨3, 0⟩ [],
       newSession (lit "proj") (lit "b.jsonl") [] ⟨2, 0⟩ [],
       newSession (lit "proj") (lit "c.jsonl") [] ⟨1, 0⟩ []] ∧
    rankSessions threeSessions.reverse = rankSessions threeSessions := by
  refine ⟨by decide, by decide, ?_⟩
  obtain ⟨ranked, e, -, -, h⟩ := rankSessions_descending_permutation threeSessions
  rw [e]
  exact (h (by decide)).2 _ (List.reverse_perm threeSessions)

/-- C7, the claim fails: of thirteen sessions the first and the tenth discovered have the
same LastActive, and the ranking puts the tenth first and the first ninth. -/
theorem rankSessions_not_stable :
    rankSessions tiedSessions = some tiedRanked ∧
    tiedSessions[0]? = some (tieSession 0 1) ∧ tiedSessions[9]? = some (tieSession 9 1) ∧
    (tieSession 0 1).LastActive = (tieSession 9 1).LastActive ∧
    tiedRanked[0]? = some (tieSession 9 1) ∧ tiedRanked[8]? = some (tieSession 0 1) ∧
    tiedRanked.filter (fun s => decide (s.LastActive.unixNano = 1)) ≠
      tiedSessions.filter (fun s => decide (s.LastActive.unixNano = 1)) := by
  decide

/-- C7, amended: the ranking step sorts by LastActive, latest first, and is not a stable
sort; for at most 12 sessions it keeps the discovery order of the sessions of equal
LastActive. -/
theorem rankSessions_stable_small (sessions : List Session) :
    ∃ ranked, rankSessions sessions = some ranked ∧ ranked.Perm sessions ∧
      ranked.Sorted (fun s t => t.LastActive.unixNano ≤ s.LastActive.unixNano) ∧
      (sessions.length ≤ 12 →
        ∀ t : Int, ranked.filter (fun s => decide (s.LastActive.unixNano = t)) =
          sessions.filter (fun s => decide (s.LastActive.unixNano = t))) := by
  obtain ⟨r, e, h1, h2⟩ := rankSessions_spec sessions
  refine ⟨r, e, h1, h2, ?_⟩
  intro h t
  obtain ⟨e2, hst⟩ := sortSlice_small rankKey sessionLess sessionLess_eq sessions h
  have er : r = insertionSort sessionLess sessions 0 sessions.length := by
    unfold rankSessions at e
    rw [e2] at e
    exact (Option.some.inj e).symm
  rw [er]
  apply hst
  intro x y hx hy
  simp only [decide_eq_true_eq] at hx hy
  unfold rankKey
  omega

theorem rankSessions_stable_small_witness :
    smallTie.length ≤ 12 ∧
    rankSessions smallTie = some [tieSession 1 2, tieSession 0 1, tieSession 2 1] ∧
    ∃ ranked, rankSessions smallTie = some ranked ∧ ranked.Perm smallTie ∧
      ranked.Sorted (fun s t => t.LastActive.unixNano ≤ s.LastActive.unixNano) ∧
      (smallTie.length ≤ 12 →
        ∀ t : Int, ranked.filter (fun s => decide (s.LastActive.unixNano = t)) =
          smallTie.filter (fun s => decide (s.LastActive.unixNano = t))) :=
  ⟨by decide, by decide, rankSessions_stable_small smallTie⟩

end Proofs

end CcRes
